import Mathlib

/-!
Verification of the dependency-selection engines of the `vscode-vsce`
repository (files `src/packageManagers/deno.ts` and
`src/packageManagers/types.ts`), as a shallow embedding in Lean.

Modelling conventions:
* JavaScript strings are Lean `String`s; index arithmetic (`indexOf`,
  `lastIndexOf`, `slice`, `charAt`) is carried out on the underlying
  character list.
* `path.join` is modelled as `"/"`-intercalation of its segments, without
  `.`/`..` normalisation; path identity is all the claims need.
* Filesystem reads (`package.json` lookup, `fs.realpath`) are supplied by an
  explicit `Env` record of pure functions; `realpath` returning `none`
  models an ENOENT rejection.
* Thrown JavaScript exceptions become `Except` errors; a JS `TypeError`
  arising from dereferencing `undefined` is the `typeError` constructor.
* JS array `push`/`pop` stacks are modelled with the TOP of the stack at the
  HEAD of a Lean list, so pushing a batch appends its reversal in front.
-/

/-- First index of a character in a character list, counting from `i`. -/
def idxOfAux : List Char → Char → Nat → Option Nat
  | [], _, _ => none
  | x :: xs, c, i => if x = c then some i else idxOfAux xs c (i + 1)

/-- JS `s.indexOf(c, start)` on a character list (`none` for `-1`). -/
def idxOfFrom (l : List Char) (c : Char) (start : Nat) : Option Nat :=
  match idxOfAux (l.drop start) c 0 with
  | none => none
  | some i => some (start + i)

/-- JS `s.lastIndexOf(c)` on a character list (`none` for `-1`). -/
def lastIdxOf (l : List Char) (c : Char) : Option Nat :=
  match idxOfAux l.reverse c 0 with
  | none => none
  | some i => some (l.length - 1 - i)

/-- Full split of a character list at a separator character (JS
`s.split(sep)` without limit; the limit-2 truncation is taken by selecting
the first two segments of this full split). -/
def splitOnChar : List Char → Char → List (List Char)
  | [], _ => [[]]
  | c :: cs, sep =>
    if c = sep then [] :: splitOnChar cs sep
    else
      match splitOnChar cs sep with
      | [] => [[c]]
      | p :: ps => (c :: p) :: ps

/-- JS `s.split(sep)` for a one-character separator, as strings. -/
def jsSplitChar (s : String) (sep : Char) : List String :=
  (splitOnChar s.data sep).map String.mk

/-- JS `s.includes(c)` for a single character. -/
def strContainsChar (s : String) (c : Char) : Bool :=
  (idxOfAux s.data c 0).isSome

def startsWithChars : List Char → List Char → Bool
  | _, [] => true
  | [], _ :: _ => false
  | c :: cs, p :: ps => c = p && startsWithChars cs ps

/-- JS `s.startsWith(pat)`. -/
def strStartsWith (s pat : String) : Bool :=
  startsWithChars s.data pat.data

/-- JS `String.prototype.replace('/', '+')`: only the FIRST occurrence. -/
def replaceFirstSlash : List Char → List Char
  | [] => []
  | c :: cs => if c = '/' then '+' :: cs else c :: replaceFirstSlash cs

/-- `path.join`, modelled as plain `/`-intercalation (no normalisation). -/
def joinPath (parts : List String) : String := String.intercalate "/" parts

/-- JS `Set.prototype.add` on an insertion-ordered list. -/
def addSet (l : List String) (x : String) : List String :=
  if l.contains x then l else l ++ [x]

/-- `Array.from(new Set(l))`: deduplication keeping first occurrences. -/
def dedup (l : List String) : List String := l.foldl addSet []

deriving instance DecidableEq for Except

/-- Errors thrown by the deno lockfile resolver (`deno.ts`). -/
inductive DenoErr where
  | noPackageJson (localPath : String)
  | noNameInPackageJson (localPath : String)
  | invalidPackageAtVersion (s : String)
  | invalidMultiPackage (s v : String)
  | exceededMaxItersSplit (s : String)
  | invalidSpecifierInLock (s : String)
  | invalidVersionString (s : String)
  | typeError
  | registryNotFound (registryId : String)
  | packageNotFound (registryId pav : String)
  | fsError (p : String)
deriving DecidableEq

/-- `splitPackageAtVersion` of `deno.ts` (lines 79-96): find the first `:`;
skip one further character when the character after the colon is `@` (scoped
package); cut at the next `@`; an empty version is an error. -/
def splitPackageAtVersion (s : String) : Except DenoErr (String × Option String) :=
  let l := s.data
  let afterColon : Nat :=
    match idxOfAux l ':' 0 with
    | none => 0
    | some i => i + 1
  let initialOffset : Nat := if l.get? afterColon = some '@' then afterColon + 1 else afterColon
  match idxOfFrom l '@' initialOffset with
  | none => .ok (s, none)
  | some cut =>
    let version := String.mk (l.drop (cut + 1))
    if version = "" then .error (.invalidPackageAtVersion s)
    else .ok (String.mk (l.take cut), some version)

/-- Loop body of `splitMultiPackageAtVersion` (`deno.ts` lines 107-130).
`versionTail.split('_', 2)` is JS split-with-limit: it returns the first two
segments of the full split and DISCARDS the remainder, which the model
reproduces by taking segments 0 and 1 of `splitOn`. -/
def splitMultiAux : Nat → String → List String → Except DenoErr (List String)
  | 0, s, _ => .error (.exceededMaxItersSplit s)
  | fuel + 1, s, acc => do
    let (pkgName, vt) ← splitPackageAtVersion s
    match vt with
    | none => .ok (acc ++ [s])
    | some v =>
      if ¬ strContainsChar v '@' then .ok (acc ++ [s])
      else
        match idxOfFrom v.data '_' 0 with
        | none => .error (.invalidMultiPackage s v)
        | some _ =>
          let parts := jsSplitChar v '_'
          let version := (parts.get? 0).getD ""
          let rest := (parts.get? 1).getD ""
          splitMultiAux fuel rest (acc ++ [pkgName ++ "@" ++ version])

/-- `splitMultiPackageAtVersion` with its iteration cap `s.length`. -/
def splitMultiPackageAtVersion (s : String) : Except DenoErr (List String) :=
  splitMultiAux s.length s []

/-- `denoStoreId`: replace the first `/` with `+`. -/
def denoStoreId (packageAtVersion : String) : String :=
  String.mk (replaceFirstSlash packageAtVersion.data)

/-- The store directory computed by `denoPath` before symlink resolution. -/
def denoStorePath (denoLockPath packageAtVersion : String) : String :=
  joinPath [denoLockPath, "..", "node_modules", ".deno", denoStoreId packageAtVersion, "node_modules"]

/-- A parsed local `package.json`: declared name and dependency ranges. -/
structure PkgJson where
  name : Option String
  dependencies : List (String × String)

/-- The filesystem collaborators of the deno resolver: `package.json`
lookup (keyed by the joined directory) and `fs.realpath`. -/
structure Env where
  readPkgJson : String → Option PkgJson
  realpath : String → Option String

/-- `denoPath` (`deno.ts` lines 132-141): store path plus `realpath`. -/
def denoPath (env : Env) (denoLockPath packageAtVersion : String) : Except DenoErr String :=
  match env.realpath (denoStorePath denoLockPath packageAtVersion) with
  | none => .error (.fsError (denoStorePath denoLockPath packageAtVersion))
  | some r => .ok r

/-- A registry entry of the lock document (`DenoNpmEntry`). -/
structure DenoNpmEntry where
  integrity : String
  dependencies : Option (List String)
deriving DecidableEq

/-- A workspace member as it appears in the lock document. -/
structure DenoWorkspaceMember where
  dependencies : Option (List String)
deriving DecidableEq

/-- The `workspace` field shapes distinguished by `iterDenoWorkspaceMembers`. -/
inductive DenoWorkspaceField where
  | members (ms : List (String × DenoWorkspaceMember))
  | single (m : DenoWorkspaceMember)
  | absent
deriving DecidableEq

/-- The parsed `deno.lock` document; registry sections keep document order. -/
structure DenoLock where
  version : String
  specifiers : List (String × String)
  workspace : DenoWorkspaceField
  registries : List (String × List (String × DenoNpmEntry))
deriving DecidableEq

/-- `iterDenoWorkspaceMembers` (`deno.ts` lines 61-73). -/
def iterDenoWorkspaceMembers (lock : DenoLock) : List (String × DenoWorkspaceMember) :=
  match lock.workspace with
  | .members ms => ms
  | .single m => [(".", m)]
  | .absent => []

def KNOWN_REGISTRIES : List String := ["npm", "jsr"]

/-- The enriched catalog entry built for one workspace member (`deno.ts`
lines 150-178): read `package.json`, require a name, and collect the
`workspace:`-prefixed dependency names. -/
structure WsMeta where
  name : String
  dependencies : Option (List String)
  workspaceDependencies : List String
deriving DecidableEq

def buildCatalogEntry (env : Env) (denoLockPath localPath : String) (m : DenoWorkspaceMember) :
    Except DenoErr (String × WsMeta) :=
  match env.readPkgJson (joinPath [denoLockPath, "..", localPath]) with
  | none => .error (.noPackageJson localPath)
  | some pj =>
    match pj.name with
    | none => .error (.noNameInPackageJson localPath)
    | some n =>
      if n = "" then .error (.noNameInPackageJson localPath)
      else
        .ok (localPath,
          { name := n
            dependencies := m.dependencies
            workspaceDependencies := (pj.dependencies.filter (fun d => strStartsWith d.2 "workspace:")).map (·.1) })

/-- `workspacesWithLocalDeps` of `selectDenoDependencies`. -/
def buildCatalog (env : Env) (denoLockPath : String) (lock : DenoLock) :
    Except DenoErr (List (String × WsMeta)) :=
  (iterDenoWorkspaceMembers lock).mapM (fun e => buildCatalogEntry env denoLockPath e.1 e.2)

/-- Seed scan over one known registry (`deno.ts` lines 187-201): every key
must contain an `@` (else a format error), and keys whose bare name is
allow-listed are added to the visited set as `registry:key`. -/
def seedFromRegistry (registry : String) (entries : List (String × DenoNpmEntry))
    (packagedDependencies : List String) (acc : List String) : Except DenoErr (List String) :=
  entries.foldlM (fun acc e =>
    match lastIdxOf e.1.data '@' with
    | none => .error (.invalidSpecifierInLock e.1)
    | some i =>
      let pkgName := String.mk (e.1.data.take i)
      .ok (if packagedDependencies.contains pkgName then addSet acc (registry ++ ":" ++ e.1) else acc)) acc

def seedRegistryDeps (lock : DenoLock) (packagedDependencies : List String) :
    Except DenoErr (List String) :=
  KNOWN_REGISTRIES.foldlM (fun acc registry =>
    match lock.registries.lookup registry with
    | none => .ok acc
    | some entries => seedFromRegistry registry entries packagedDependencies acc) []

/-- Traversal state shared by the two frontier drains: the visited token set
(`registryDependencies`), the collected paths (`collectedDependencyPaths`,
holding pending `realpath` results), and the frontier stack (top at head). -/
structure Trav (τ : Type) where
  visited : List String
  collected : List (Except DenoErr String)
  frontier : List τ
deriving DecidableEq

/-- A workspace frontier entry `[localPath, workspace]`; the member is
`Option` because the pushed catalog lookup may be `undefined`. -/
abbrev WsEntry := String × Option WsMeta

/-- Registry-dependency additions of one workspace member (`deno.ts` lines
217-222): translate the range through `specifiers` (an absent specifier
stringifies as `"undefined"`) and add `nameWithRegistry@version`. -/
def wsRegistryDeps (specifiers : List (String × String)) (deps : List String)
    (visited : List String) : Except DenoErr (List String) :=
  deps.foldlM (fun vis dep => do
    let versionString := specifiers.lookup dep
    let (pkgNameWithRegistry, _) ← splitPackageAtVersion dep
    .ok (addSet vis (pkgNameWithRegistry ++ "@" ++ versionString.getD "undefined"))) visited

/-- One iteration of the workspace frontier loop (`deno.ts` lines 209-223):
record the popped entry's joined path, fail with a `TypeError` if the popped
member is `undefined`, push every workspace-internal dependency name paired
with its catalog lookup, and add the registry dependencies. -/
def wsStep (denoLockPath : String) (specifiers : List (String × String))
    (catalog : List (String × WsMeta)) (e : WsEntry) (st : Trav WsEntry) :
    Except DenoErr (Trav WsEntry) :=
  let collected := st.collected ++ [.ok (joinPath [denoLockPath, "..", e.1])]
  match e.2 with
  | none => .error .typeError
  | some m => do
    let pushed : List WsEntry := (m.workspaceDependencies.map (fun d => (d, catalog.lookup d))).reverse
    let visited ← wsRegistryDeps specifiers (m.dependencies.getD []) st.visited
    .ok { visited := visited, collected := collected, frontier := pushed ++ st.frontier }

/-- The workspace frontier drain: `for (i = 0; frontier.length > 0 && i < MAX_ITERS; i++)`.
Exhausting the fuel EXITS the loop with the state so far (no error). -/
def drainWs (denoLockPath : String) (specifiers : List (String × String))
    (catalog : List (String × WsMeta)) : Nat → Trav WsEntry → Except DenoErr (Trav WsEntry)
  | 0, st => .ok st
  | fuel + 1, st =>
    match st.frontier with
    | [] => .ok st
    | e :: rest => do
      let st' ← wsStep denoLockPath specifiers catalog e { st with frontier := rest }
      drainWs denoLockPath specifiers catalog fuel st'

/-- Rebind detection (`deno.ts` lines 275-281): when an `@` occurs (searching
from index 1) before the first `:`, keep only the text after that `@`. -/
def rebindTarget (dep : String) : String :=
  match idxOfFrom dep.data '@' 1, idxOfFrom dep.data ':' 0 with
  | some a, some c => if a < c then String.mk (dep.data.drop (a + 1)) else dep
  | _, _ => dep

/-- Dependency enqueueing (`deno.ts` lines 272-291): unwrap rebinds, default
the parent registry, and push tokens not yet visited. Returns the new
visited set and the batch pushed (in push order). -/
def enqueueDeps (registryId : String) (deps : List String)
    (visited : List String) : List String × List String :=
  deps.foldl (fun vf dep =>
    let dep := rebindTarget dep
    let ds := if strContainsChar dep ':' then dep else registryId ++ ":" ++ dep
    if vf.1.contains ds then vf else (vf.1 ++ [ds], vf.2 ++ [ds])) (visited, [])

/-- The part of the registry loop body after version resolution (`deno.ts`
lines 251-291): split the multi-package key, enqueue the store paths, look
the entry up (missing registry / missing entry are fatal), and enqueue its
dependencies. -/
def processResolved (env : Env) (denoLockPath : String) (lock : DenoLock)
    (registryId pav : String) (st : Trav String) : Except DenoErr (Trav String) := do
  let pieces ← splitMultiPackageAtVersion pav
  let collected := st.collected ++ pieces.map (fun p => denoPath env denoLockPath p)
  match lock.registries.lookup registryId with
  | none => .error (.registryNotFound registryId)
  | some entries =>
    match entries.lookup pav with
    | none => .error (.packageNotFound registryId pav)
    | some meta =>
      match meta.dependencies with
      | none => .ok { st with collected := collected }
      | some deps =>
        let vp := enqueueDeps registryId deps st.visited
        .ok { visited := vp.1, collected := collected, frontier := vp.2.reverse ++ st.frontier }

/-- One iteration of the registry frontier loop (`deno.ts` lines 228-291):
split the token at the first `:` (JS `split(':', 2)` keeps the first two
segments), and when the token carries no version resolve it to the first key
of that registry with prefix `name@` (an absent registry section makes
`Object.keys(undefined)` throw a `TypeError`). -/
def regStep (env : Env) (denoLockPath : String) (lock : DenoLock) (tok : String)
    (st : Trav String) : Except DenoErr (Trav String) :=
  match jsSplitChar tok ':' with
  | [] => .error (.invalidVersionString tok)
  | [_] => .error (.invalidVersionString tok)
  | registryId :: pav :: _ =>
    if registryId = "" ∨ pav = "" then .error (.invalidVersionString tok)
    else do
      let (pkgName, vOpt) ← splitPackageAtVersion pav
      match vOpt with
      | some _ => processResolved env denoLockPath lock registryId pav st
      | none =>
        match lock.registries.lookup registryId with
        | none => .error .typeError
        | some entries =>
          let resolved := ((entries.find? (fun e => strStartsWith e.1 (pkgName ++ "@"))).map (·.1)).getD pav
          processResolved env denoLockPath lock registryId resolved st

/-- The registry frontier drain, with the same silent fuel exit. -/
def drainReg (env : Env) (denoLockPath : String) (lock : DenoLock) :
    Nat → Trav String → Except DenoErr (Trav String)
  | 0, st => .ok st
  | fuel + 1, st =>
    match st.frontier with
    | [] => .ok st
    | tok :: rest => do
      let st' ← regStep env denoLockPath lock tok { st with frontier := rest }
      drainReg env denoLockPath lock fuel st'

def MAX_ITERS : Nat := 10000

/-- `matchedLocalWorkspaces` as the initial workspace frontier (popping the
JS array from the end = head of the reversed list). -/
def initialWsFrontier (catalog : List (String × WsMeta)) (packagedDependencies : List String) :
    List WsEntry :=
  ((catalog.filter (fun e => packagedDependencies.contains e.2.name)).map (fun e => (e.1, some e.2))).reverse

/-- `selectDenoDependencies` (`deno.ts` lines 145-295). -/
def selectDenoDependencies (env : Env) (denoLockPath : String) (lock : DenoLock)
    (packagedDependencies : List String) : Except DenoErr (List String) := do
  let catalog ← buildCatalog env denoLockPath lock
  let seeds ← seedRegistryDeps lock packagedDependencies
  let st1 ← drainWs denoLockPath lock.specifiers catalog MAX_ITERS
    { visited := seeds, collected := [], frontier := initialWsFrontier catalog packagedDependencies }
  let st2 ← drainReg env denoLockPath lock MAX_ITERS
    { visited := st1.visited, collected := st1.collected, frontier := st1.visited.reverse }
  st2.collected.mapM id

/-- `getDenoDependencies` (`deno.ts` lines 305-341). Locating and parsing
`deno.lock` is supplied by the caller (`denoLockPath`, `lock`); with no
allow-list only the `npm` section is enumerated (`Object.keys(denoLock.npm)`,
a `TypeError` when that section is absent). -/
def getDenoDependencies (env : Env) (denoLockPath : String) (lock : DenoLock)
    (cwd : String) (packagedDependencies : Option (List String)) : Except DenoErr (List String) := do
  let absPathResults ←
    match packagedDependencies with
    | none =>
      match lock.registries.lookup "npm" with
      | none => .error DenoErr.typeError
      | some entries => do
        let piecess ← (entries.map (·.1)).mapM splitMultiPackageAtVersion
        piecess.flatten.mapM (fun p => denoPath env denoLockPath p)
    | some pd => selectDenoDependencies env denoLockPath lock pd
  let withRoot := if absPathResults.contains cwd then absPathResults else absPathResults ++ [cwd]
  .ok (dedup withRoot)

/-- A raw node of `yarn list --json` output (`YarnTreeNode` in `types.ts`). -/
inductive YarnTreeNode where
  | mk (name : String) (children : List YarnTreeNode)

def YarnTreeNode.name : YarnTreeNode → String
  | .mk n _ => n

def YarnTreeNode.children : YarnTreeNode → List YarnTreeNode
  | .mk _ cs => cs

/-- A normalised dependency node (`YarnDependency` in `types.ts`). -/
inductive YarnDependency where
  | mk (name : String) (path : String) (children : List YarnDependency)

def YarnDependency.name : YarnDependency → String
  | .mk n _ _ => n

def YarnDependency.path : YarnDependency → String
  | .mk _ p _ => p

def YarnDependency.children : YarnDependency → List YarnDependency
  | .mk _ _ cs => cs

/-- The pruning test `/@[\^~]/.test(name)`: some `@` immediately followed by
`^` or `~` anywhere in the string. -/
def hasRangeMark : List Char → Bool
  | a :: b :: rest =>
    (a = '@' && (b = '^' || b = '~')) || hasRangeMark (b :: rest)
  | _ => false

def hasRange (s : String) : Bool := hasRangeMark s.data

/-- The fallback `name.replace(/^([^@+])@.*$/, '$1')` of `asYarnDependency`:
the regex matches only when the WHOLE label is one character (not `@`, not
`+`) followed by `@` and a tail without line terminators (`.` does not match
`\n`, `\r`, U+2028, U+2029 and `$` only matches at the very end); on a match
the label collapses to that first character, otherwise it is unchanged. -/
def yarnFallbackName (s : String) : String :=
  match s.data with
  | c :: '@' :: rest =>
    if c = '@' || c = '+' || rest.any (fun x => x = '\n' || x = '\r' || x.val = 0x2028 || x.val = 0x2029)
    then s
    else String.mk [c]
  | _ => s

/-- `asYarnDependency` (`types.ts` lines 45-71). `ps` models the external
`parse-semver` package: `some name` on success, `none` when it throws. -/
def asYarnDependency (ps : String → Option String) (pre : String) (t : YarnTreeNode)
    (prune : Bool) : Option YarnDependency :=
  match t with
  | .mk rawName cs =>
    if prune && hasRange rawName then none
    else
      let name := match ps rawName with
        | some n => n
        | none => yarnFallbackName rawName
      some (.mk name (joinPath [pre, name]) (asYarnChildren ps (joinPath [pre, name, "node_modules"]) cs prune))
where
  asYarnChildren (ps : String → Option String) (pre : String) :
      List YarnTreeNode → Bool → List YarnDependency
  | [], _ => []
  | t :: rest, prune =>
    match asYarnDependency ps pre t prune with
    | some d => d :: asYarnChildren ps pre rest prune
    | none => asYarnChildren ps pre rest prune

/-- Errors thrown by the yarn tree resolver (`types.ts`). `fuelOut` marks
exhaustion of the fuel that makes the JS recursion of `visit` structural;
it never occurs in runs the theorems speak about. -/
inductive YarnErr where
  | duplicate (n : String)
  | missing (n : String)
  | fuelOut
deriving DecidableEq

/-- The name index of `selectYarnDependencies` (`types.ts` lines 74-91):
association list over the top-level forest, rejecting duplicate names. -/
def buildIndex (deps : List YarnDependency) : Except YarnErr (List (String × YarnDependency)) :=
  deps.foldlM (fun idx d =>
    if (idx.lookup d.name).isSome then .error (.duplicate d.name)
    else .ok (idx ++ [(d.name, d)])) []

/-- The recursive `visit` of `selectYarnDependencies` (`types.ts` lines
104-113): look the name up in the top-level index, stop if the node was
already reached, otherwise record it and visit every child BY NAME. The
`reached` set uses JS reference equality; since every element comes from the
index, whose names are unique, name equality is an equivalent test. -/
def visit (idx : List (String × YarnDependency)) :
    Nat → List YarnDependency → String → Except YarnErr (List YarnDependency)
  | 0, _, _ => .error .fuelOut
  | fuel + 1, reached, name =>
    match idx.lookup name with
    | none => .error (.missing name)
    | some dep =>
      if reached.any (fun d => d.name = dep.name) then .ok reached
      else dep.children.foldlM (fun r c => visit idx fuel r c.name) (reached ++ [dep])

/-- `selectYarnDependencies` (`types.ts` lines 73-116). -/
def selectYarnDependencies (fuel : Nat) (deps : List YarnDependency)
    (packagedDependencies : List String) : Except YarnErr (List YarnDependency) := do
  let idx ← buildIndex deps
  packagedDependencies.foldlM (fun r n => visit idx fuel r n) []

/-- `getYarnProductionDependencies` (`types.ts` lines 146-172), starting from
the parsed `trees` array of the external tool's output. -/
def getYarnProductionDependencies (ps : String → Option String) (cwd : String)
    (trees : List YarnTreeNode) (packagedDependencies : Option (List String))
    (fuel : Nat) : Except YarnErr (List YarnDependency) :=
  let usingPackagedDependencies := packagedDependencies.isSome
  let result := (trees.map (fun t =>
    asYarnDependency ps (joinPath [cwd, "node_modules"]) t (!usingPackagedDependencies))).reduceOption
  match packagedDependencies with
  | some pd => selectYarnDependencies fuel result pd
  | none => .ok result

/-- The `flatten` accumulation of `getYarnDependencies` (`types.ts` lines
123-126) over the insertion-ordered result set. -/
def flattenInto (acc : List String) (d : YarnDependency) : List String :=
  match d with
  | .mk _ p cs => flattenList (addSet acc p) cs
where
  flattenList (acc : List String) : List YarnDependency → List String
  | [] => acc
  | d :: rest => flattenList (flattenInto acc d) rest

/-- `getYarnDependencies` (`types.ts` lines 119-130). -/
def getYarnDependencies (ps : String → Option String) (cwd : String)
    (trees : List YarnTreeNode) (packagedDependencies : Option (List String))
    (fuel : Nat) : Except YarnErr (List String) := do
  let deps ← getYarnProductionDependencies ps cwd trees packagedDependencies fuel
  .ok (deps.foldl flattenInto [cwd])

/-- The paths of a node together with its entire subtree. -/
def subtreePaths (d : YarnDependency) : List String :=
  match d with
  | .mk _ p cs => p :: subtreeList cs
where
  subtreeList : List YarnDependency → List String
  | [] => []
  | d :: rest => subtreePaths d ++ subtreeList rest


/-! ### Predicates and concrete documents used by the claim theorems -/

/-- Reachability of a catalog key from a set of start keys, following each
workspace-internal dependency NAME as a catalog (local-path) key — exactly
the graph the frontier drain walks. -/
inductive ReachFrom (catalog : List (String × WsMeta)) : List String → String → Prop
  | base {ks : List String} {k : String} : k ∈ ks → ReachFrom catalog ks k
  | step {ks : List String} {k d : String} {m : WsMeta} :
      ReachFrom catalog ks k → catalog.lookup k = some m →
      d ∈ m.workspaceDependencies → ReachFrom catalog ks d

/-- Every frontier entry carries exactly the catalog lookup of its key. -/
def Coherent (catalog : List (String × WsMeta)) (frontier : List WsEntry) : Prop :=
  ∀ e ∈ frontier, e.2 = catalog.lookup e.1

/-- A node of the selection result is "done" relative to `idx` and a result
set `r`: each of its children resolves through the top-level index and the
resolved node is itself in `r`. -/
def DoneIn (idx : List (String × YarnDependency)) (r : List YarnDependency)
    (d : YarnDependency) : Prop :=
  ∀ c ∈ d.children, ∃ dep d', idx.lookup c.name = some dep ∧ d' ∈ r ∧ d'.name = dep.name

/-- Modelled from the spec's words (for comparison in C7): strip everything
from the first `@` onward. -/
def specStripAtSuffix (s : String) : String :=
  match idxOfFrom s.data '@' 0 with
  | none => s
  | some i => String.mk (s.data.take i)

/-- An environment whose store always resolves and with no `package.json`. -/
def env2 : Env := { readPkgJson := fun _ => none, realpath := fun s => some s }

/-- Lock document with one `npm` entry and one `jsr` entry. -/
def lock2 : DenoLock :=
  { version := "5", specifiers := [], workspace := .absent,
    registries := [("npm", [("lodash@4.17.21", { integrity := "sha", dependencies := none })]),
                   ("jsr", [("@std/x@1.0.0", { integrity := "sha2", dependencies := none })])] }

/-- Environment for the self-referential workspace document: one member at
local path `a`, named `a`, declaring a workspace-protocol dependency on `a`. -/
def env1 : Env :=
  { readPkgJson := fun p =>
      if p = joinPath ["LK", "..", "a"] then
        some { name := some "a", dependencies := [("a", "workspace:*")] }
      else none,
    realpath := fun s => some s }

/-- Lock document whose only workspace member cycles into itself. -/
def lock1 : DenoLock :=
  { version := "5", specifiers := [],
    workspace := .members [("a", { dependencies := none })], registries := [] }

def wsMeta1 : WsMeta := { name := "a", dependencies := none, workspaceDependencies := ["a"] }

def cat1 : List (String × WsMeta) := [("a", wsMeta1)]

def e1 : WsEntry := ("a", some wsMeta1)

/-- Environment for the name-vs-local-path workspace document: the root
member is named `root` and declares a workspace dependency on `b`; the
member at local path `b` is named `zzz`; the member at local path
`packages/x` is the one actually named `b`. -/
def env4 : Env :=
  { readPkgJson := fun p =>
      if p = joinPath ["LK", "..", "."] then
        some { name := some "root", dependencies := [("b", "workspace:*")] }
      else if p = joinPath ["LK", "..", "b"] then
        some { name := some "zzz", dependencies := [] }
      else if p = joinPath ["LK", "..", "packages/x"] then
        some { name := some "b", dependencies := [] }
      else none,
    realpath := fun s => some s }

def lock4 : DenoLock :=
  { version := "5", specifiers := [],
    workspace := .members [(".", { dependencies := none }), ("b", { dependencies := none }),
                           ("packages/x", { dependencies := none })],
    registries := [] }

/-- Lock document whose only entry depends on a versionless reference into a
registry section that does not exist. -/
def lock8 : DenoLock :=
  { version := "5", specifiers := [], workspace := .absent,
    registries := [("npm", [("a@1.0", { integrity := "i", dependencies := some ["weird:foo"] })])] }

/-- Registry entries with two keys matching the bare name `x`. -/
def entriesW : List (String × DenoNpmEntry) :=
  [("x@1", { integrity := "i1", dependencies := none }),
   ("x@2", { integrity := "i2", dependencies := none })]

/-- Lock document used to witness versionless resolution. -/
def lockW : DenoLock :=
  { version := "5", specifiers := [], workspace := .absent, registries := [("npm", entriesW)] }

/-- A `parse-semver` model that always throws. -/
def ps0 : String → Option String := fun _ => none

/-- A `parse-semver` model that succeeds exactly on `left-pad@1.2.3`. -/
def psC6 : String → Option String := fun s => if s = "left-pad@1.2.3" then some "left-pad" else none

/-- A ranged node (with a child) next to a pinned sibling of the same name. -/
def trees6 : List YarnTreeNode :=
  [.mk "left-pad@^1.2.3" [.mk "marker@1.0.0" []], .mk "left-pad@1.2.3" []]

def A10 : YarnDependency := .mk "a" "pa" [.mk "b" "pbc" [.mk "m" "pm" []]]

def B10 : YarnDependency := .mk "b" "pb" [.mk "c" "pcc" []]

def C10n : YarnDependency := .mk "c" "pc" []

/-- A three-tree forest where `a` reaches `b` reaches `c` through child names. -/
def trees5 : List YarnTreeNode :=
  [.mk "a@1.0.0" [.mk "b@1.0.0" []], .mk "b@1.0.0" [.mk "c@1.0.0" []], .mk "c@1.0.0" []]

/-! ### Basic lemmas about the set/dedup helpers and `Except` traversals -/

theorem mem_addSet {l : List String} {x y : String} :
    y ∈ addSet l x ↔ y ∈ l ∨ y = x := by
  unfold addSet
  by_cases h : l.contains x = true
  · have hx : x ∈ l := by simpa using h
    simp only [h, if_pos]
    constructor
    · exact Or.inl
    · rintro (hy | rfl)
      · exact hy
      · exact hx
  · simp only [h]
    simp [List.mem_append]

theorem addSet_nodup {l : List String} {x : String} (h : l.Nodup) : (addSet l x).Nodup := by
  unfold addSet
  by_cases hc : l.contains x = true
  · rw [if_pos hc]; exact h
  · rw [if_neg hc]
    have hx : x ∉ l := by simpa using hc
    simpa [List.nodup_append] using ⟨h, hx⟩

theorem mem_foldl_addSet (l : List String) :
    ∀ (acc : List String) (x : String), x ∈ l.foldl addSet acc ↔ x ∈ acc ∨ x ∈ l := by
  induction l with
  | nil => intro acc x; simp
  | cons a l ih =>
    intro acc x
    rw [List.foldl_cons, ih]
    rw [mem_addSet]
    constructor
    · rintro ((h | rfl) | h)
      · exact Or.inl h
      · exact Or.inr (List.mem_cons_self _ _)
      · exact Or.inr (List.mem_cons_of_mem _ h)
    · rintro (h | h)
      · exact Or.inl (Or.inl h)
      · rcases List.mem_cons.mp h with rfl | h
        · exact Or.inl (Or.inr rfl)
        · exact Or.inr h

theorem nodup_foldl_addSet (l : List String) :
    ∀ (acc : List String), acc.Nodup → (l.foldl addSet acc).Nodup := by
  induction l with
  | nil => intro acc h; simpa using h
  | cons a l ih => intro acc h; exact ih _ (addSet_nodup h)

theorem mem_dedup {l : List String} {x : String} : x ∈ dedup l ↔ x ∈ l := by
  unfold dedup; rw [mem_foldl_addSet]; simp

theorem nodup_dedup (l : List String) : (dedup l).Nodup :=
  nodup_foldl_addSet l [] List.nodup_nil

theorem addSet_idem (l : List String) (x : String) : addSet (addSet l x) x = addSet l x := by
  have hx : (addSet l x).contains x = true := by simp [mem_addSet]
  have hdef : addSet (addSet l x) x =
      if (addSet l x).contains x = true then addSet l x else addSet l x ++ [x] := rfl
  rw [hdef, if_pos hx]

theorem foldl_addSet_replicate (n : Nat) (acc : List String) (x : String) (h : 0 < n) :
    (List.replicate n x).foldl addSet acc = addSet acc x := by
  induction n generalizing acc with
  | zero => omega
  | succ n ih =>
    rw [List.replicate_succ, List.foldl_cons]
    rcases Nat.eq_zero_or_pos n with rfl | hn
    · simp
    · rw [ih _ hn, addSet_idem]

theorem contains_replicate_false {n : Nat} {x y : String} (h : y ≠ x) :
    (List.replicate n x).contains y = false := by
  have : y ∉ List.replicate n x := by
    intro hm
    exact h (List.eq_of_mem_replicate hm)
  simpa using this

/-- Membership transport through `List.mapM` over `Except`. -/
theorem mapM_ok_mem {α β : Type} {ε : Type} {f : α → Except ε β} :
    ∀ {l : List α} {rs : List β}, l.mapM f = .ok rs →
      ∀ {x : α}, x ∈ l → ∃ y, y ∈ rs ∧ f x = .ok y := by
  intro l
  induction l with
  | nil => intro rs _ x hx; cases hx
  | cons a l ih =>
    intro rs h x hx
    rw [List.mapM_cons] at h
    cases ha : f a with
    | error e => rw [ha] at h; simp [Bind.bind, Except.bind] at h
    | ok b =>
      rw [ha] at h
      cases hl : l.mapM f with
      | error e => rw [hl] at h; simp [Bind.bind, Except.bind, Pure.pure] at h
      | ok bs =>
        rw [hl] at h
        simp only [Bind.bind, Except.bind, Pure.pure] at h
        cases h
        rcases List.mem_cons.mp hx with rfl | hx
        · exact ⟨b, List.mem_cons_self _ _, ha⟩
        · rcases ih hl hx with ⟨y, hy, hfy⟩
          exact ⟨y, List.mem_cons_of_mem _ hy, hfy⟩

theorem mapM_id_mem {α ε : Type} {l : List (Except ε α)} {rs : List α}
    (h : l.mapM id = .ok rs) {x : α} (hx : Except.ok x ∈ l) : x ∈ rs := by
  rcases mapM_ok_mem h hx with ⟨y, hy, hfy⟩
  cases hfy
  exact hy

theorem mapM_id_replicate_ok {α ε : Type} (n : Nat) (x : α) :
    (List.replicate n (Except.ok x : Except ε α)).mapM id = .ok (List.replicate n x) := by
  induction n with
  | zero => rfl
  | succ n ih =>
    rw [List.replicate_succ, List.mapM_cons, ih]
    rw [List.replicate_succ]
    rfl

/-- `List.lookup` over an append scans the left list first. -/
theorem lookup_append {β : Type} (l₁ l₂ : List (String × β)) (k : String) :
    (l₁ ++ l₂).lookup k = ((l₁.lookup k).map some).getD (l₂.lookup k) := by
  induction l₁ with
  | nil => simp
  | cons a l ih =>
    by_cases h : k = a.1
    · simp [List.lookup, h]
    · have hb : (k == a.1) = false := by simpa using h
      simp [List.lookup, hb, ih]

/-- In a key-unique association list, membership determines `lookup`. -/
theorem lookup_of_mem_nodup {β : Type} :
    ∀ {l : List (String × β)}, (l.map Prod.fst).Nodup →
      ∀ {k : String} {v : β}, (k, v) ∈ l → l.lookup k = some v := by
  intro l
  induction l with
  | nil => intro _ k v hm; cases hm
  | cons a l ih =>
    intro hnd k v hm
    rw [List.map_cons, List.nodup_cons] at hnd
    rcases List.mem_cons.mp hm with rfl | hm
    · simp [List.lookup]
    · have hk : k ≠ a.1 := by
        intro rfl2
        exact hnd.1 (by
          subst rfl2
          exact List.mem_map.mpr ⟨(a.1, v), hm, rfl⟩)
      have hb : (k == a.1) = false := by simpa using hk
      simp [List.lookup, hb]
      exact ih hnd.2 hm

/-! ### Lemmas about the workspace and registry frontier drains -/

/-- Characterisation of a successful workspace step: the popped member was
defined, its joined key was recorded, and its workspace-internal dependency
names were pushed paired with their catalog lookups. -/
theorem wsStep_ok {lp : String} {specs : List (String × String)}
    {catalog : List (String × WsMeta)} {e : WsEntry} {st st' : Trav WsEntry}
    (h : wsStep lp specs catalog e st = .ok st') :
    ∃ m, e.2 = some m ∧
      st'.collected = st.collected ++ [.ok (joinPath [lp, "..", e.1])] ∧
      st'.frontier = (m.workspaceDependencies.map (fun d => (d, catalog.lookup d))).reverse ++ st.frontier := by
  unfold wsStep at h
  cases he : e.2 with
  | none =>
    rw [he] at h
    dsimp only at h
    exact (Except.noConfusion h)
  | some m =>
    rw [he] at h
    dsimp only at h
    cases hv : wsRegistryDeps specs (m.dependencies.getD []) st.visited with
    | error err =>
      rw [hv] at h
      dsimp only [Bind.bind, Except.bind] at h
      exact (Except.noConfusion h)
    | ok vis =>
      rw [hv] at h
      dsimp only [Bind.bind, Except.bind] at h
      cases h
      exact ⟨m, rfl, rfl, rfl⟩

theorem drainWs_collected_mono (lp : String) (specs : List (String × String))
    (catalog : List (String × WsMeta)) :
    ∀ (fuel : Nat) (st st' : Trav WsEntry),
      drainWs lp specs catalog fuel st = .ok st' →
      ∀ x ∈ st.collected, x ∈ st'.collected := by
  intro fuel
  induction fuel with
  | zero =>
    intro st st' h x hx
    have hst : st' = st := by simpa [drainWs] using h.symm
    rw [hst]; exact hx
  | succ fuel ih =>
    intro st st' h x hx
    rw [drainWs] at h
    cases hf : st.frontier with
    | nil =>
      rw [hf] at h
      dsimp only at h
      cases h
      exact hx
    | cons e rest =>
      rw [hf] at h
      dsimp only at h
      cases hw : wsStep lp specs catalog e { st with frontier := rest } with
      | error err =>
        rw [hw] at h
        dsimp only [Bind.bind, Except.bind] at h
        exact (Except.noConfusion h)
      | ok st1 =>
        rw [hw] at h
        dsimp only [Bind.bind, Except.bind] at h
        rcases wsStep_ok hw with ⟨m, _, hcol, _⟩
        exact ih st1 st' h x (by rw [hcol]; exact List.mem_append_left _ hx)

theorem reachFrom_nil {catalog : List (String × WsMeta)} {k : String}
    (h : ReachFrom catalog [] k) : False := by
  induction h with
  | base hk => cases hk
  | step _ _ _ ih => exact ih

theorem reachFrom_congr {catalog : List (String × WsMeta)} {ks ks' : List String}
    (hset : ∀ x, x ∈ ks → x ∈ ks') :
    ∀ {k : String}, ReachFrom catalog ks k → ReachFrom catalog ks' k := by
  intro k h
  induction h with
  | base hk => exact .base (hset _ hk)
  | step _ hl hd ih => exact .step ih hl hd

/-- Popping a coherent entry: anything reachable from the old frontier keys
is the popped key itself or reachable from the new frontier keys. -/
theorem reachFrom_transfer {catalog : List (String × WsMeta)} {e : WsEntry}
    {restKeys : List String} {m : WsMeta}
    (hcoh : e.2 = catalog.lookup e.1) (hm : e.2 = some m) :
    ∀ {k : String}, ReachFrom catalog (e.1 :: restKeys) k →
      k = e.1 ∨ ReachFrom catalog (m.workspaceDependencies ++ restKeys) k := by
  intro k h
  induction h with
  | base hk =>
    rcases List.mem_cons.mp hk with h1 | h2
    · exact Or.inl h1
    · exact Or.inr (.base (List.mem_append_right _ h2))
  | step _ hl hd ih =>
    rcases ih with rfl | hr
    · rw [← hcoh, hm] at hl
      cases hl
      exact Or.inr (.base (List.mem_append_left _ hd))
    · exact Or.inr (.step hr hl hd)

/-- Worklist correctness of the workspace drain: when the drain empties its
frontier, every key reachable from the initial frontier keys has had its
joined directory recorded. -/
theorem drainWs_reach (lp : String) (specs : List (String × String))
    (catalog : List (String × WsMeta)) :
    ∀ (fuel : Nat) (st st' : Trav WsEntry),
      Coherent catalog st.frontier →
      drainWs lp specs catalog fuel st = .ok st' →
      st'.frontier = [] →
      ∀ k, ReachFrom catalog (st.frontier.map Prod.fst) k →
        Except.ok (joinPath [lp, "..", k]) ∈ st'.collected := by
  intro fuel
  induction fuel with
  | zero =>
    intro st st' _ h hfr k hk
    have hst : st' = st := by simpa [drainWs] using h.symm
    rw [hst] at hfr
    rw [hfr] at hk
    exact absurd hk (fun hh => reachFrom_nil hh)
  | succ fuel ih =>
    intro st st' hcoh h hfr k hk
    rw [drainWs] at h
    cases hf : st.frontier with
    | nil =>
      rw [hf] at h
      rw [hf] at hk
      exact absurd hk (fun hh => reachFrom_nil hh)
    | cons e rest =>
      rw [hf] at h
      dsimp only at h
      cases hw : wsStep lp specs catalog e { st with frontier := rest } with
      | error err =>
        rw [hw] at h
        dsimp only [Bind.bind, Except.bind] at h
        exact (Except.noConfusion h)
      | ok st1 =>
        rw [hw] at h
        dsimp only [Bind.bind, Except.bind] at h
        rcases wsStep_ok hw with ⟨m, hm, hcol, hfr1⟩
        have hcohe : e.2 = catalog.lookup e.1 := hcoh e (by rw [hf]; exact List.mem_cons_self _ _)
        have hrest : Coherent catalog rest := by
          intro e' he'
          exact hcoh e' (by rw [hf]; exact List.mem_cons_of_mem _ he')
        have hcoh1 : Coherent catalog st1.frontier := by
          intro e' he'
          rw [hfr1] at he'
          rcases List.mem_append.mp he' with hp | hr
          · rcases List.mem_map.mp (List.mem_reverse.mp hp) with ⟨d, _, hde⟩
            rw [← hde]
          · exact hrest e' hr
        rw [hf] at hk
        simp only [List.map_cons] at hk
        rcases reachFrom_transfer hcohe hm hk with rfl | hreach
        · exact drainWs_collected_mono lp specs catalog fuel st1 st' h _
            (by rw [hcol]; exact List.mem_append_right _ (List.mem_cons_self _ _))
        · refine ih st1 st' hcoh1 h hfr k (reachFrom_congr ?_ hreach)
          intro x hx
          rw [hfr1]
          rw [List.map_append]
          rcases List.mem_append.mp hx with hx1 | hx2
          · refine List.mem_append_left _ ?_
            rw [List.map_reverse, List.mem_reverse]
            exact List.mem_map.mpr ⟨(x, catalog.lookup x),
              List.mem_map.mpr ⟨x, hx1, rfl⟩, rfl⟩
          · exact List.mem_append_right _ hx2

theorem processResolved_collected {env : Env} {lp : String} {lock : DenoLock}
    {rid pav : String} {st st' : Trav String}
    (h : processResolved env lp lock rid pav st = .ok st') :
    ∃ tail, st'.collected = st.collected ++ tail := by
  unfold processResolved at h
  cases hs : splitMultiPackageAtVersion pav with
  | error e =>
    rw [hs] at h
    dsimp only [Bind.bind, Except.bind] at h
    exact (Except.noConfusion h)
  | ok pieces =>
    rw [hs] at h
    dsimp only [Bind.bind, Except.bind] at h
    cases hl : lock.registries.lookup rid with
    | none => rw [hl] at h; dsimp only at h; exact (Except.noConfusion h)
    | some entries =>
      rw [hl] at h
      dsimp only at h
      cases hp : entries.lookup pav with
      | none => rw [hp] at h; dsimp only at h; exact (Except.noConfusion h)
      | some meta =>
        rw [hp] at h
        dsimp only at h
        cases hd : meta.dependencies with
        | none => rw [hd] at h; dsimp only at h; cases h; exact ⟨_, rfl⟩
        | some deps => rw [hd] at h; dsimp only at h; cases h; exact ⟨_, rfl⟩

theorem regStep_collected {env : Env} {lp : String} {lock : DenoLock}
    {tok : String} {st st' : Trav String}
    (h : regStep env lp lock tok st = .ok st') :
    ∃ tail, st'.collected = st.collected ++ tail := by
  unfold regStep at h
  cases htok : jsSplitChar tok ':' with
  | nil => rw [htok] at h; exact (Except.noConfusion h)
  | cons r tl =>
    cases tl with
    | nil => rw [htok] at h; exact (Except.noConfusion h)
    | cons p rest =>
      rw [htok] at h
      dsimp only at h
      by_cases hrp : r = "" ∨ p = ""
      · rw [if_pos hrp] at h; exact (Except.noConfusion h)
      · rw [if_neg hrp] at h
        cases hsp : splitPackageAtVersion p with
        | error e =>
          rw [hsp] at h
          dsimp only [Bind.bind, Except.bind] at h
          exact (Except.noConfusion h)
        | ok nv =>
          obtain ⟨pkgName, vOpt⟩ := nv
          rw [hsp] at h
          dsimp only [Bind.bind, Except.bind] at h
          cases vOpt with
          | some v => exact processResolved_collected h
          | none =>
            dsimp only at h
            cases hl : lock.registries.lookup r with
            | none => rw [hl] at h; exact (Except.noConfusion h)
            | some entries =>
              rw [hl] at h
              dsimp only at h
              exact processResolved_collected h

theorem drainReg_collected_mono (env : Env) (lp : String) (lock : DenoLock) :
    ∀ (fuel : Nat) (st st' : Trav String),
      drainReg env lp lock fuel st = .ok st' →
      ∀ x ∈ st.collected, x ∈ st'.collected := by
  intro fuel
  induction fuel with
  | zero =>
    intro st st' h x hx
    have hst : st' = st := by simpa [drainReg] using h.symm
    rw [hst]; exact hx
  | succ fuel ih =>
    intro st st' h x hx
    rw [drainReg] at h
    cases hf : st.frontier with
    | nil =>
      rw [hf] at h
      cases h
      exact hx
    | cons tok rest =>
      rw [hf] at h
      dsimp only at h
      cases hw : regStep env lp lock tok { st with frontier := rest } with
      | error err =>
        rw [hw] at h
        dsimp only [Bind.bind, Except.bind] at h
        exact (Except.noConfusion h)
      | ok st1 =>
        rw [hw] at h
        dsimp only [Bind.bind, Except.bind] at h
        rcases regStep_collected hw with ⟨tail, hcol⟩
        exact ih st1 st' h x (by rw [hcol]; exact List.mem_append_left _ hx)

/-- The self-referential workspace member cycles forever: each loop
iteration records its directory once and leaves the frontier unchanged. -/
theorem drainWs_selfLoop (n : Nat) :
    ∀ (vis : List String) (acc : List (Except DenoErr String)),
      drainWs "LK" [] cat1 n { visited := vis, collected := acc, frontier := [e1] } =
        .ok { visited := vis,
              collected := acc ++ List.replicate n (.ok (joinPath ["LK", "..", "a"])),
              frontier := [e1] } := by
  induction n with
  | zero => intro vis acc; simp [drainWs]
  | succ n ih =>
    intro vis acc
    rw [drainWs]
    have hstep : wsStep "LK" [] cat1 e1 { visited := vis, collected := acc, frontier := [] } =
        .ok { visited := vis, collected := acc ++ [.ok (joinPath ["LK", "..", "a"])],
              frontier := [e1] } := by rfl
    dsimp only
    rw [hstep]
    dsimp only [Bind.bind, Except.bind]
    rw [ih]
    rw [List.replicate_succ]
    rw [List.append_assoc, List.singleton_append]

/-- Composition of the phases of `selectDenoDependencies`. -/
theorem selectDeno_eq (env : Env) (lp : String) (lock : DenoLock) (pkgd : List String)
    (catalog : List (String × WsMeta)) (seeds : List String)
    (st1 : Trav WsEntry) (st2 : Trav String)
    (hcat : buildCatalog env lp lock = .ok catalog)
    (hseeds : seedRegistryDeps lock pkgd = .ok seeds)
    (hws : drainWs lp lock.specifiers catalog MAX_ITERS
      { visited := seeds, collected := [], frontier := initialWsFrontier catalog pkgd } = .ok st1)
    (hreg : drainReg env lp lock MAX_ITERS
      { visited := st1.visited, collected := st1.collected, frontier := st1.visited.reverse } = .ok st2) :
    selectDenoDependencies env lp lock pkgd = st2.collected.mapM id := by
  unfold selectDenoDependencies
  rw [hcat]
  dsimp only [Bind.bind, Except.bind]
  rw [hseeds]
  dsimp only [Bind.bind, Except.bind]
  rw [hws]
  dsimp only [Bind.bind, Except.bind]
  rw [hreg]

/-- Final root/dedup step of `getDenoDependencies` in allow-list mode. -/
theorem getDeno_of_select (env : Env) (lp : String) (lock : DenoLock) (cwd : String)
    (pd res : List String)
    (h : selectDenoDependencies env lp lock pd = .ok res) :
    getDenoDependencies env lp lock cwd (some pd) =
      .ok (dedup (if res.contains cwd then res else res ++ [cwd])) := by
  unfold getDenoDependencies
  dsimp only
  rw [h]
  dsimp only [Bind.bind, Except.bind]

/-- C3 (code evidence): the documented one- and two-package examples split as
claimed, but a key concatenating THREE `name@version` pairs loses its third
package: JS `split('_', 2)` keeps only the first two split segments and
discards the remainder of the version tail. -/
theorem C3_multi_split :
    splitMultiPackageAtVersion "fdir@6.4.6_picomatch@4.0.2" = .ok ["fdir@6.4.6", "picomatch@4.0.2"] ∧
    splitMultiPackageAtVersion "is-number@7.0.0" = .ok ["is-number@7.0.0"] ∧
    splitMultiPackageAtVersion "a@1.0.0_b@2.0.0_c@3.0.0" = .ok ["a@1.0.0", "b@2.0.0"] := by
  refine ⟨?_, ?_, ?_⟩ <;> decide

theorem drainReg_empty (env : Env) (lp : String) (lock : DenoLock) (fuel : Nat)
    (st : Trav String) (h : st.frontier = []) :
    drainReg env lp lock fuel st = .ok st := by
  cases fuel with
  | zero => simp [drainReg]
  | succ n => rw [drainReg, h]

/-- C1 (counterexample to the claim as stated): a lock document whose single
workspace member (local path `a`, package name `a`) declares a workspace
dependency on itself drives the workspace frontier to the 10000-iteration
cap with the frontier still non-empty, yet the enumeration SUCCEEDS with a
result assembled from the 10000 recorded paths, instead of failing with a
LockfileFormat error. -/
theorem C1_counterexample :
    drainWs "LK" lock1.specifiers cat1 MAX_ITERS
      { visited := [], collected := [], frontier := initialWsFrontier cat1 ["a"] } =
      .ok { visited := [],
            collected := List.replicate MAX_ITERS (.ok (joinPath ["LK", "..", "a"])),
            frontier := [e1] } ∧
    getDenoDependencies env1 "LK" lock1 "ROOT" (some ["a"]) =
      .ok [joinPath ["LK", "..", "a"], "ROOT"] := by
  have hws : drainWs "LK" lock1.specifiers cat1 MAX_ITERS
      { visited := [], collected := [], frontier := initialWsFrontier cat1 ["a"] } =
      .ok { visited := [],
            collected := List.replicate MAX_ITERS (.ok (joinPath ["LK", "..", "a"])),
            frontier := [e1] } := by
    have h := drainWs_selfLoop MAX_ITERS [] []
    rw [List.nil_append] at h
    have hfr : initialWsFrontier cat1 ["a"] = [e1] := by decide
    rw [hfr]
    exact h
  refine ⟨hws, ?_⟩
  have hcat : buildCatalog env1 "LK" lock1 = .ok cat1 := by decide
  have hseeds : seedRegistryDeps lock1 ["a"] = .ok [] := by decide
  have hreg := drainReg_empty env1 "LK" lock1 MAX_ITERS
    { visited := ([] : List String),
      collected := List.replicate MAX_ITERS (.ok (joinPath ["LK", "..", "a"])),
      frontier := ([] : List String).reverse } (by rfl)
  have hsel : selectDenoDependencies env1 "LK" lock1 ["a"] =
      .ok (List.replicate MAX_ITERS (joinPath ["LK", "..", "a"])) := by
    rw [selectDeno_eq env1 "LK" lock1 ["a"] cat1 []
      { visited := [], collected := List.replicate MAX_ITERS (.ok (joinPath ["LK", "..", "a"])),
        frontier := [e1] }
      _ hcat hseeds hws hreg]
    exact mapM_id_replicate_ok _ _
  rw [getDeno_of_select env1 "LK" lock1 "ROOT" ["a"] _ hsel]
  have hc : (List.replicate MAX_ITERS (joinPath ["LK", "..", "a"])).contains "ROOT" = false :=
    contains_replicate_false (by decide)
  simp only [hc, Bool.false_eq_true, if_false]
  have hded : dedup (List.replicate MAX_ITERS (joinPath ["LK", "..", "a"]) ++ ["ROOT"]) =
      [joinPath ["LK", "..", "a"], "ROOT"] := by
    unfold dedup
    rw [List.foldl_append]
    rw [foldl_addSet_replicate MAX_ITERS [] _ (by decide)]
    decide
  rw [hded]

/-- C1 (amended): when the workspace frontier drain reaches the iteration
cap with work still pending (`st1.frontier ≠ []`), the loop silently stops;
the enumeration continues with the partially collected paths and returns
them successfully when the remaining phases succeed — no LockfileFormat
error is raised for exceeding the cap. -/
theorem C1_cap_partial (env : Env) (lp : String) (lock : DenoLock) (pkgd : List String)
    (catalog : List (String × WsMeta)) (seeds : List String)
    (st1 : Trav WsEntry) (st2 : Trav String) (res : List String)
    (hcat : buildCatalog env lp lock = .ok catalog)
    (hseeds : seedRegistryDeps lock pkgd = .ok seeds)
    (hws : drainWs lp lock.specifiers catalog MAX_ITERS
      { visited := seeds, collected := [], frontier := initialWsFrontier catalog pkgd } = .ok st1)
    (hpend : st1.frontier ≠ [])
    (hreg : drainReg env lp lock MAX_ITERS
      { visited := st1.visited, collected := st1.collected, frontier := st1.visited.reverse } = .ok st2)
    (hmap : st2.collected.mapM id = .ok res) :
    selectDenoDependencies env lp lock pkgd = .ok res := by
  rw [selectDeno_eq env lp lock pkgd catalog seeds st1 st2 hcat hseeds hws hreg, hmap]

/-- Witness for `C1_cap_partial`: the self-cycling document instantiates
every hypothesis, including a capped drain with a pending frontier. -/
theorem C1_cap_partial_witness :
    selectDenoDependencies env1 "LK" lock1 ["a"] =
      .ok (List.replicate MAX_ITERS (joinPath ["LK", "..", "a"])) :=
  C1_cap_partial env1 "LK" lock1 ["a"] cat1 []
    { visited := [], collected := List.replicate MAX_ITERS (.ok (joinPath ["LK", "..", "a"])),
      frontier := [e1] }
    { visited := [], collected := List.replicate MAX_ITERS (.ok (joinPath ["LK", "..", "a"])),
      frontier := [] }
    (List.replicate MAX_ITERS (joinPath ["LK", "..", "a"]))
    (by decide) (by decide)
    (by
      have h := drainWs_selfLoop MAX_ITERS [] []
      rw [List.nil_append] at h
      have hfr : initialWsFrontier cat1 ["a"] = [e1] := by decide
      rw [hfr]
      exact h)
    (by simp)
    (drainReg_empty env1 "LK" lock1 MAX_ITERS _ (by rfl))
    (mapM_id_replicate_ok _ _)

/-- C2 (counterexample to the claim as stated): with no allow-list the code
enumerates `denoLock.npm` only; in a document that also has a `jsr` section,
the `jsr` entry's store path is absent from the successful result. -/
theorem C2_counterexample :
    getDenoDependencies env2 "LK" lock2 "ROOT" none =
      .ok [denoStorePath "LK" "lodash@4.17.21", "ROOT"] ∧
    denoStorePath "LK" "@std/x@1.0.0" ∉ [denoStorePath "LK" "lodash@4.17.21", "ROOT"] ∧
    ("@std/x@1.0.0", ({ integrity := "sha2", dependencies := none } : DenoNpmEntry)) ∈
      (lock2.registries.lookup "jsr").getD [] := by
  refine ⟨by decide, by decide, by decide⟩

/-- C2 (amended): with no allow-list, the enumeration returns the resolved
store path for every entry of the `npm` registry section ONLY (each key
first expanded through the multi-package split), plus the project root;
other registry sections (e.g. `jsr`) are not enumerated. -/
theorem C2_npm_only (env : Env) (lp : String) (lock : DenoLock) (cwd : String)
    (res : List String) (entries : List (String × DenoNpmEntry))
    (hnpm : lock.registries.lookup "npm" = some entries)
    (hok : getDenoDependencies env lp lock cwd none = .ok res) :
    cwd ∈ res ∧
    ∀ key meta, (key, meta) ∈ entries →
      ∀ pieces, splitMultiPackageAtVersion key = .ok pieces →
        ∀ piece ∈ pieces, ∀ r, env.realpath (denoStorePath lp piece) = some r → r ∈ res := by
  unfold getDenoDependencies at hok
  rw [hnpm] at hok
  dsimp only [Bind.bind, Except.bind] at hok
  cases hm1 : (entries.map (·.1)).mapM splitMultiPackageAtVersion with
  | error e =>
    rw [hm1] at hok
    dsimp only [Bind.bind, Except.bind] at hok
    exact (Except.noConfusion hok)
  | ok piecess =>
    rw [hm1] at hok
    dsimp only [Bind.bind, Except.bind] at hok
    cases hm2 : piecess.flatten.mapM (fun p => denoPath env lp p) with
    | error e =>
      rw [hm2] at hok
      dsimp only [Bind.bind, Except.bind] at hok
      exact (Except.noConfusion hok)
    | ok paths =>
      rw [hm2] at hok
      dsimp only [Bind.bind, Except.bind] at hok
      cases hok
      have hwr : ∀ x ∈ paths, x ∈ (if paths.contains cwd = true then paths else paths ++ [cwd]) := by
        intro x hx
        by_cases hc : paths.contains cwd = true
        · rw [if_pos hc]; exact hx
        · rw [if_neg hc]; exact List.mem_append_left _ hx
      constructor
      · rw [mem_dedup]
        by_cases hc : paths.contains cwd = true
        · rw [if_pos hc]
          simpa using hc
        · rw [if_neg hc]
          exact List.mem_append_right _ (List.mem_cons_self _ _)
      · intro key meta hkm pieces hsplit piece hpiece r hr
        have hkey : key ∈ entries.map (·.1) := List.mem_map.mpr ⟨(key, meta), hkm, rfl⟩
        rcases mapM_ok_mem hm1 hkey with ⟨ps', hps', hfx⟩
        rw [hsplit] at hfx
        have hpe : pieces = ps' := Except.ok.inj hfx
        subst hpe
        have hmem : piece ∈ piecess.flatten := List.mem_flatten.mpr ⟨pieces, hps', hpiece⟩
        rcases mapM_ok_mem hm2 hmem with ⟨y, hy, hfy⟩
        have hdp : denoPath env lp piece = .ok r := by
          unfold denoPath
          rw [hr]
        rw [hdp] at hfy
        have hry : r = y := Except.ok.inj hfy
        subst hry
        rw [mem_dedup]
        exact hwr r hy

/-- Witness for `C2_npm_only` at the two-registry document. -/
theorem C2_npm_only_witness :
    "ROOT" ∈ [denoStorePath "LK" "lodash@4.17.21", "ROOT"] ∧
    ∀ key meta,
      (key, meta) ∈ [("lodash@4.17.21", ({ integrity := "sha", dependencies := none } : DenoNpmEntry))] →
      ∀ pieces, splitMultiPackageAtVersion key = .ok pieces →
        ∀ piece ∈ pieces, ∀ r, env2.realpath (denoStorePath "LK" piece) = some r →
          r ∈ [denoStorePath "LK" "lodash@4.17.21", "ROOT"] :=
  C2_npm_only env2 "LK" lock2 "ROOT" _ _ (by decide) (by decide)

theorem initialWsFrontier_coherent (catalog : List (String × WsMeta)) (pkgd : List String)
    (hnd : (catalog.map Prod.fst).Nodup) :
    Coherent catalog (initialWsFrontier catalog pkgd) := by
  intro e he
  unfold initialWsFrontier at he
  rw [List.mem_reverse] at he
  rcases List.mem_map.mp he with ⟨⟨k, m⟩, hmem, hek⟩
  have hkm : (k, m) ∈ catalog := (List.mem_filter.mp hmem).1
  rw [← hek]
  exact (lookup_of_mem_nodup hnd hkm).symm

/-- C4 (counterexample to the claim as stated): the allow-listed root member
(local path `.`, name `root`) declares a workspace dependency on `b`; the
member actually NAMED `b` lives at local path `packages/x`, while local path
`b` holds a member named `zzz`. The call succeeds, records the directory of
the member at local path `b` (the dependency name used as a path key), and
the reachable member named `b` never has its directory `LK/../packages/x`
recorded. -/
theorem C4_counterexample :
    getDenoDependencies env4 "LK" lock4 "ROOT" (some ["root"]) =
      .ok [joinPath ["LK", "..", "."], joinPath ["LK", "..", "b"], "ROOT"] ∧
    joinPath ["LK", "..", "packages/x"] ∉
      [joinPath ["LK", "..", "."], joinPath ["LK", "..", "b"], "ROOT"] ∧
    (buildCatalog env4 "LK" lock4).map
        (fun c => c.map (fun e => (e.1, e.2.name, e.2.workspaceDependencies))) =
      .ok [(".", "root", ["b"]), ("b", "zzz", []), ("packages/x", "b", [])] := by
  refine ⟨by decide, by decide, by decide⟩

/-- C4 (amended): each popped frontier entry has its KEY (a local path for
seeds, a dependency NAME for pushed entries) joined under the lock directory
and recorded, and its workspace-internal dependency names are pushed paired
with the catalog entry stored under that name as a local-path key;
consequently, every key reachable from the allow-listed members' local paths
by following workspace-internal dependency names as local-path keys has its
joined directory in the successful result, provided the workspace drain
emptied its frontier within the cap. -/
theorem C4_reachable_recorded (env : Env) (lp : String) (lock : DenoLock)
    (pkgd : List String) (catalog : List (String × WsMeta)) (seeds : List String)
    (st1 : Trav WsEntry) (res : List String)
    (hcat : buildCatalog env lp lock = .ok catalog)
    (hnd : (catalog.map Prod.fst).Nodup)
    (hseeds : seedRegistryDeps lock pkgd = .ok seeds)
    (hws : drainWs lp lock.specifiers catalog MAX_ITERS
      { visited := seeds, collected := [], frontier := initialWsFrontier catalog pkgd } = .ok st1)
    (hempty : st1.frontier = [])
    (hsel : selectDenoDependencies env lp lock pkgd = .ok res) :
    (∀ e st st', wsStep lp lock.specifiers catalog e st = .ok st' →
      ∃ m, e.2 = some m ∧
        st'.collected = st.collected ++ [.ok (joinPath [lp, "..", e.1])] ∧
        st'.frontier = (m.workspaceDependencies.map (fun d => (d, catalog.lookup d))).reverse ++ st.frontier) ∧
    ∀ k, ReachFrom catalog ((initialWsFrontier catalog pkgd).map Prod.fst) k →
      joinPath [lp, "..", k] ∈ res := by
  constructor
  · intro e st st' h
    exact wsStep_ok h
  · intro k hk
    have hrec := drainWs_reach lp lock.specifiers catalog MAX_ITERS _ st1
      (initialWsFrontier_coherent catalog pkgd hnd) hws hempty k hk
    unfold selectDenoDependencies at hsel
    rw [hcat] at hsel
    dsimp only [Bind.bind, Except.bind] at hsel
    rw [hseeds] at hsel
    dsimp only [Bind.bind, Except.bind] at hsel
    rw [hws] at hsel
    dsimp only [Bind.bind, Except.bind] at hsel
    cases hreg : drainReg env lp lock MAX_ITERS
        { visited := st1.visited, collected := st1.collected, frontier := st1.visited.reverse } with
    | error e2 =>
      rw [hreg] at hsel
      exact (Except.noConfusion hsel)
    | ok st2 =>
      rw [hreg] at hsel
      dsimp only [Bind.bind, Except.bind] at hsel
      have hmem2 : Except.ok (joinPath [lp, "..", k]) ∈ st2.collected :=
        drainReg_collected_mono env lp lock MAX_ITERS _ st2 hreg _ hrec
      exact mapM_id_mem hsel hmem2

/-- Witness for `C4_reachable_recorded`: following the dependency name `b`
as a local-path key from the allow-listed root records `LK/../b`. -/
theorem C4_reachable_recorded_witness :
    joinPath ["LK", "..", "b"] ∈ [joinPath ["LK", "..", "."], joinPath ["LK", "..", "b"]] :=
  (C4_reachable_recorded env4 "LK" lock4 ["root"]
    [(".", { name := "root", dependencies := none, workspaceDependencies := ["b"] }),
     ("b", { name := "zzz", dependencies := none, workspaceDependencies := [] }),
     ("packages/x", { name := "b", dependencies := none, workspaceDependencies := [] })]
    []
    { visited := [],
      collected := [.ok (joinPath ["LK", "..", "."]), .ok (joinPath ["LK", "..", "b"])],
      frontier := [] }
    [joinPath ["LK", "..", "."], joinPath ["LK", "..", "b"]]
    (by decide) (by decide) (by decide) (by decide) (by decide) (by decide)).2
    "b"
    (ReachFrom.step (k := ".") (d := "b")
      (m := { name := "root", dependencies := none, workspaceDependencies := ["b"] })
      (ReachFrom.base (by decide)) (by decide) (by decide))

/-- A token that parses to a bare name splits into just itself. -/
theorem splitMulti_noVersion {pav : String} (hne : pav ≠ "")
    (hnov : splitPackageAtVersion pav = .ok (pav, none)) :
    splitMultiPackageAtVersion pav = .ok [pav] := by
  unfold splitMultiPackageAtVersion
  cases hl : pav.length with
  | zero =>
    exfalso
    apply hne
    have hd : pav.data.length = 0 := hl
    have hdn : pav.data = [] := List.length_eq_zero.mp hd
    cases pav with
    | mk d =>
      simp only [String.data] at hdn
      rw [hdn]
  | succ n =>
    rw [splitMultiAux]
    rw [hnov]
    dsimp only [Bind.bind, Except.bind]
    rw [List.nil_append]

/-- C8 (counterexample to the claim as stated): the entry `a@1.0` depends on
the versionless reference `weird:foo`; no registry section `weird` exists,
so no key of "that registry" matches the prefix `foo@` — yet the call fails
with a `TypeError` (from `Object.keys(undefined)`), not with the
MissingDependency error. -/
theorem C8_counterexample :
    getDenoDependencies env2 "LK" lock8 "ROOT" (some ["a"]) = .error .typeError ∧
    DenoErr.typeError ≠ DenoErr.packageNotFound "weird" "foo" := by
  refine ⟨by decide, by decide⟩

/-- C8 (amended): for a frontier token `registry:name` with no explicit
version whose registry section exists, the version is resolved to the FIRST
key of that registry, in document key order, whose prefix matches `name@`;
when no key matches and the bare name is not itself a key, the step — and
with it the drain — fails with the MissingDependency error; a token naming
an absent registry section fails with a `typeError` before the scan. -/
theorem C8_versionless_resolution (env : Env) (lp : String) (lock : DenoLock)
    (tok registryId pav : String) (st : Trav String)
    (entries : List (String × DenoNpmEntry))
    (htok : jsSplitChar tok ':' = [registryId, pav])
    (hne : ¬(registryId = "" ∨ pav = ""))
    (hnov : splitPackageAtVersion pav = .ok (pav, none))
    (hreg : lock.registries.lookup registryId = some entries) :
    (∀ e0, entries.find? (fun e => strStartsWith e.1 (pav ++ "@")) = some e0 →
      regStep env lp lock tok st = processResolved env lp lock registryId e0.1 st) ∧
    (entries.find? (fun e => strStartsWith e.1 (pav ++ "@")) = none →
      entries.lookup pav = none →
      regStep env lp lock tok st = .error (.packageNotFound registryId pav)) ∧
    (entries.find? (fun e => strStartsWith e.1 (pav ++ "@")) = none →
      entries.lookup pav = none →
      ∀ (fuel : Nat) (rest : List String) (vis : List String) (coll : List (Except DenoErr String)),
        drainReg env lp lock (fuel + 1) { visited := vis, collected := coll, frontier := tok :: rest } =
          .error (.packageNotFound registryId pav)) ∧
    (∀ (lock' : DenoLock), lock'.registries.lookup registryId = none →
      regStep env lp lock' tok st = .error .typeError) := by
  have hpavne : pav ≠ "" := fun h => hne (Or.inr h)
  have hmain : ∀ (st' : Trav String), regStep env lp lock tok st' =
      processResolved env lp lock registryId
        (((entries.find? (fun e => strStartsWith e.1 (pav ++ "@"))).map (·.1)).getD pav) st' := by
    intro st'
    unfold regStep
    rw [htok]
    dsimp only
    rw [if_neg hne]
    rw [hnov]
    dsimp only [Bind.bind, Except.bind]
    rw [hreg]
  have herr : ∀ (st' : Trav String),
      entries.find? (fun e => strStartsWith e.1 (pav ++ "@")) = none →
      entries.lookup pav = none →
      regStep env lp lock tok st' = .error (.packageNotFound registryId pav) := by
    intro st' hfind hlook
    rw [hmain st', hfind]
    simp only [Option.map_none', Option.getD_none]
    unfold processResolved
    rw [splitMulti_noVersion hpavne hnov]
    dsimp only [Bind.bind, Except.bind]
    rw [hreg]
    dsimp only
    rw [hlook]
  refine ⟨?_, herr st, ?_, ?_⟩
  · intro e0 he0
    rw [hmain st, he0]
    rfl
  · intro hfind hlook fuel rest vis coll
    rw [drainReg]
    dsimp only
    rw [herr { visited := vis, collected := coll, frontier := rest } hfind hlook]
    rfl
  · intro lock' hlock'
    unfold regStep
    rw [htok]
    dsimp only
    rw [if_neg hne]
    rw [hnov]
    dsimp only [Bind.bind, Except.bind]
    rw [hlock']

/-- Witness for `C8_versionless_resolution`: with two candidate keys `x@1`
and `x@2`, the versionless token `npm:x` resolves to the first, `x@1`. -/
theorem C8_versionless_resolution_witness :
    regStep env2 "LK" lockW "npm:x" { visited := [], collected := [], frontier := [] } =
      processResolved env2 "LK" lockW "npm" "x@1"
        { visited := [], collected := [], frontier := [] } :=
  (C8_versionless_resolution env2 "LK" lockW "npm:x" "npm" "x"
    { visited := [], collected := [], frontier := [] } entriesW
    (by decide) (by decide) (by decide) (by decide)).1
    ("x@1", { integrity := "i1", dependencies := none }) (by decide)

/-! ### Lemmas about the yarn tree selection walk -/

theorem buildIndex_lookup {deps : List YarnDependency} {idx : List (String × YarnDependency)}
    (h : buildIndex deps = .ok idx) :
    ∀ {n : String} {d : YarnDependency}, idx.lookup n = some d → d ∈ deps ∧ d.name = n := by
  have aux : ∀ (l : List YarnDependency) (acc idx' : List (String × YarnDependency)),
      l.foldlM (fun idx d =>
        if (idx.lookup d.name).isSome then Except.error (YarnErr.duplicate d.name)
        else Except.ok (idx ++ [(d.name, d)])) acc = .ok idx' →
      ∀ n d, idx'.lookup n = some d → acc.lookup n = some d ∨ (d ∈ l ∧ d.name = n) := by
    intro l
    induction l with
    | nil =>
      intro acc idx' hf n d hl
      rw [List.foldlM_nil] at hf
      cases hf
      exact Or.inl hl
    | cons a l ihl =>
      intro acc idx' hf n d hl
      rw [List.foldlM_cons] at hf
      by_cases hdup : (acc.lookup a.name).isSome = true
      · rw [if_pos hdup] at hf
        dsimp only [Bind.bind, Except.bind] at hf
        exact (Except.noConfusion hf)
      · rw [if_neg hdup] at hf
        dsimp only [Bind.bind, Except.bind] at hf
        rcases ihl (acc ++ [(a.name, a)]) idx' hf n d hl with hacc | hmem
        · rw [lookup_append] at hacc
          cases hacc2 : acc.lookup n with
          | some d' =>
            rw [hacc2] at hacc
            dsimp only [Option.map, Option.getD] at hacc
            exact Or.inl hacc
          | none =>
            rw [hacc2] at hacc
            dsimp only [Option.map, Option.getD] at hacc
            by_cases hn : n = a.name
            · have : [(a.name, a)].lookup n = some a := by
                simp [List.lookup, hn]
              rw [this] at hacc
              cases hacc
              exact Or.inr ⟨List.mem_cons_self _ _, hn.symm⟩
            · have : [(a.name, a)].lookup n = none := by
                have hb : (n == a.name) = false := by simpa using hn
                simp [List.lookup, hb]
              rw [this] at hacc
              exact (Option.noConfusion hacc)
        · exact Or.inr ⟨List.mem_cons_of_mem _ hmem.1, hmem.2⟩
  intro n d hl
  rcases aux deps [] idx h n d hl with habs | hg
  · exact (Option.noConfusion habs)
  · exact hg

theorem foldVisit_mono (idx : List (String × YarnDependency)) (fuel : Nat)
    (hmono : ∀ r n r', visit idx fuel r n = .ok r' → ∀ x ∈ r, x ∈ r') :
    ∀ (l : List YarnDependency) (s r' : List YarnDependency),
      l.foldlM (fun r c => visit idx fuel r c.name) s = .ok r' → ∀ y ∈ s, y ∈ r' := by
  intro l
  induction l with
  | nil =>
    intro s r' hs y hy
    rw [List.foldlM_nil] at hs
    cases hs
    exact hy
  | cons c cs ihl =>
    intro s r' hs y hy
    rw [List.foldlM_cons] at hs
    cases hv : visit idx fuel s c.name with
    | error e => rw [hv] at hs; exact (Except.noConfusion hs)
    | ok s1 =>
      rw [hv] at hs
      dsimp only [Bind.bind, Except.bind] at hs
      exact ihl s1 r' hs y (hmono s c.name s1 hv y hy)

theorem visit_mono (idx : List (String × YarnDependency)) :
    ∀ (fuel : Nat) (r : List YarnDependency) (n : String) (r' : List YarnDependency),
      visit idx fuel r n = .ok r' → ∀ x ∈ r, x ∈ r' := by
  intro fuel
  induction fuel with
  | zero =>
    intro r n r' h x hx
    rw [visit] at h
    exact (Except.noConfusion h)
  | succ fuel ih =>
    intro r n r' h x hx
    rw [visit] at h
    cases hl : idx.lookup n with
    | none => rw [hl] at h; exact (Except.noConfusion h)
    | some dep =>
      rw [hl] at h
      dsimp only at h
      by_cases hr : (r.any (fun d => d.name = dep.name)) = true
      · rw [if_pos hr] at h
        cases h
        exact hx
      · rw [if_neg hr] at h
        exact foldVisit_mono idx fuel ih dep.children (r ++ [dep]) r' h x
          (List.mem_append_left _ hx)

theorem visit_mem (idx : List (String × YarnDependency)) :
    ∀ (fuel : Nat) (r : List YarnDependency) (n : String) (r' : List YarnDependency),
      visit idx fuel r n = .ok r' →
      ∃ dep d', idx.lookup n = some dep ∧ d' ∈ r' ∧ d'.name = dep.name := by
  intro fuel
  cases fuel with
  | zero =>
    intro r n r' h
    rw [visit] at h
    exact (Except.noConfusion h)
  | succ fuel =>
    intro r n r' h
    rw [visit] at h
    cases hl : idx.lookup n with
    | none => rw [hl] at h; exact (Except.noConfusion h)
    | some dep =>
      rw [hl] at h
      dsimp only at h
      by_cases hr : (r.any (fun d => d.name = dep.name)) = true
      · rw [if_pos hr] at h
        cases h
        rcases List.any_eq_true.mp hr with ⟨d', hd', hname⟩
        exact ⟨dep, d', rfl, hd', by simpa using hname⟩
      · rw [if_neg hr] at h
        refine ⟨dep, dep, rfl, ?_, rfl⟩
        exact foldVisit_mono idx fuel (visit_mono idx fuel) dep.children (r ++ [dep]) r' h dep
          (List.mem_append_right _ (List.mem_cons_self _ _))

theorem foldVisit_sub (idx : List (String × YarnDependency)) (fuel : Nat)
    (hsub : ∀ r n r', visit idx fuel r n = .ok r' →
      ∀ x ∈ r', x ∈ r ∨ ∃ n', idx.lookup n' = some x) :
    ∀ (l : List YarnDependency) (s r' : List YarnDependency),
      l.foldlM (fun r c => visit idx fuel r c.name) s = .ok r' →
      ∀ y ∈ r', y ∈ s ∨ ∃ n', idx.lookup n' = some y := by
  intro l
  induction l with
  | nil =>
    intro s r' hs y hy
    rw [List.foldlM_nil] at hs
    cases hs
    exact Or.inl hy
  | cons c cs ihl =>
    intro s r' hs y hy
    rw [List.foldlM_cons] at hs
    cases hv : visit idx fuel s c.name with
    | error e => rw [hv] at hs; exact (Except.noConfusion hs)
    | ok s1 =>
      rw [hv] at hs
      dsimp only [Bind.bind, Except.bind] at hs
      rcases ihl s1 r' hs y hy with h1 | h2
      · exact hsub s c.name s1 hv y h1
      · exact Or.inr h2

theorem visit_sub (idx : List (String × YarnDependency)) :
    ∀ (fuel : Nat) (r : List YarnDependency) (n : String) (r' : List YarnDependency),
      visit idx fuel r n = .ok r' →
      ∀ x ∈ r', x ∈ r ∨ ∃ n', idx.lookup n' = some x := by
  intro fuel
  induction fuel with
  | zero =>
    intro r n r' h x hx
    rw [visit] at h
    exact (Except.noConfusion h)
  | succ fuel ih =>
    intro r n r' h x hx
    rw [visit] at h
    cases hl : idx.lookup n with
    | none => rw [hl] at h; exact (Except.noConfusion h)
    | some dep =>
      rw [hl] at h
      dsimp only at h
      by_cases hr : (r.any (fun d => d.name = dep.name)) = true
      · rw [if_pos hr] at h
        cases h
        exact Or.inl hx
      · rw [if_neg hr] at h
        rcases foldVisit_sub idx fuel ih dep.children (r ++ [dep]) r' h x hx with h1 | h2
        · rcases List.mem_append.mp h1 with h1a | h1b
          · exact Or.inl h1a
          · rcases List.mem_cons.mp h1b with rfl | habs
            · exact Or.inr ⟨n, hl⟩
            · cases habs
        · exact Or.inr h2

theorem doneIn_mono {idx : List (String × YarnDependency)} {r r' : List YarnDependency}
    {d : YarnDependency} (hsub : ∀ x ∈ r, x ∈ r') (h : DoneIn idx r d) : DoneIn idx r' d := by
  intro c hc
  rcases h c hc with ⟨dep, d', hl, hd', hn⟩
  exact ⟨dep, d', hl, hsub d' hd', hn⟩

theorem foldVisit_children (idx : List (String × YarnDependency)) (fuel : Nat) :
    ∀ (l : List YarnDependency) (s r' : List YarnDependency),
      l.foldlM (fun r c => visit idx fuel r c.name) s = .ok r' →
      ∀ c ∈ l, ∃ dep d', idx.lookup c.name = some dep ∧ d' ∈ r' ∧ d'.name = dep.name := by
  intro l
  induction l with
  | nil => intro s r' _ c hc; cases hc
  | cons c0 cs ihl =>
    intro s r' hs c hc
    rw [List.foldlM_cons] at hs
    cases hv : visit idx fuel s c0.name with
    | error e => rw [hv] at hs; exact (Except.noConfusion hs)
    | ok s1 =>
      rw [hv] at hs
      dsimp only [Bind.bind, Except.bind] at hs
      rcases List.mem_cons.mp hc with rfl | hc'
      · rcases visit_mem idx fuel s c.name s1 hv with ⟨dep, d', hl, hd', hn⟩
        exact ⟨dep, d', hl, foldVisit_mono idx fuel (visit_mono idx fuel) cs s1 r' hs d' hd', hn⟩
      · exact ihl s1 r' hs c hc'

theorem foldVisit_done (idx : List (String × YarnDependency)) (fuel : Nat)
    (base : List YarnDependency)
    (hdone : ∀ r n r', visit idx fuel r n = .ok r' → ∀ d ∈ r', d ∈ r ∨ DoneIn idx r' d) :
    ∀ (l : List YarnDependency) (s r' : List YarnDependency),
      l.foldlM (fun r c => visit idx fuel r c.name) s = .ok r' →
      (∀ d ∈ s, d ∈ base ∨ DoneIn idx r' d) →
      ∀ d ∈ r', d ∈ base ∨ DoneIn idx r' d := by
  intro l
  induction l with
  | nil =>
    intro s r' hs hprem d hd
    rw [List.foldlM_nil] at hs
    cases hs
    exact hprem d hd
  | cons c cs ihl =>
    intro s r' hs hprem d hd
    rw [List.foldlM_cons] at hs
    cases hv : visit idx fuel s c.name with
    | error e => rw [hv] at hs; exact (Except.noConfusion hs)
    | ok s1 =>
      rw [hv] at hs
      dsimp only [Bind.bind, Except.bind] at hs
      refine ihl s1 r' hs ?_ d hd
      intro d' hd'
      rcases hdone s c.name s1 hv d' hd' with hins | hdone'
      · exact hprem d' hins
      · exact Or.inr (doneIn_mono
          (fun y hy => foldVisit_mono idx fuel (visit_mono idx fuel) cs s1 r' hs y hy) hdone')

theorem visit_done (idx : List (String × YarnDependency)) :
    ∀ (fuel : Nat) (r : List YarnDependency) (n : String) (r' : List YarnDependency),
      visit idx fuel r n = .ok r' → ∀ d ∈ r', d ∈ r ∨ DoneIn idx r' d := by
  intro fuel
  induction fuel with
  | zero =>
    intro r n r' h d hd
    rw [visit] at h
    exact (Except.noConfusion h)
  | succ fuel ih =>
    intro r n r' h d hd
    rw [visit] at h
    cases hl : idx.lookup n with
    | none => rw [hl] at h; exact (Except.noConfusion h)
    | some dep =>
      rw [hl] at h
      dsimp only at h
      by_cases hr : (r.any (fun d => d.name = dep.name)) = true
      · rw [if_pos hr] at h
        cases h
        exact Or.inl hd
      · rw [if_neg hr] at h
        have hdepDone : DoneIn idx r' dep := by
          intro c hc
          exact foldVisit_children idx fuel dep.children (r ++ [dep]) r' h c hc
        refine foldVisit_done idx fuel r ih dep.children (r ++ [dep]) r' h ?_ d hd
        intro d' hd'
        rcases List.mem_append.mp hd' with h1 | h2
        · exact Or.inl h1
        · rcases List.mem_cons.mp h2 with rfl | habs
          · exact Or.inr hdepDone
          · cases habs

theorem foldSeeds_mono (idx : List (String × YarnDependency)) (fuel : Nat) :
    ∀ (L : List String) (s r' : List YarnDependency),
      L.foldlM (fun r n => visit idx fuel r n) s = .ok r' → ∀ y ∈ s, y ∈ r' := by
  intro L
  induction L with
  | nil =>
    intro s r' hs y hy
    rw [List.foldlM_nil] at hs
    cases hs
    exact hy
  | cons n ns ihl =>
    intro s r' hs y hy
    rw [List.foldlM_cons] at hs
    cases hv : visit idx fuel s n with
    | error e => rw [hv] at hs; exact (Except.noConfusion hs)
    | ok s1 =>
      rw [hv] at hs
      dsimp only [Bind.bind, Except.bind] at hs
      exact ihl s1 r' hs y (visit_mono idx fuel s n s1 hv y hy)

theorem foldSeeds_mem (idx : List (String × YarnDependency)) (fuel : Nat) :
    ∀ (L : List String) (s r' : List YarnDependency),
      L.foldlM (fun r n => visit idx fuel r n) s = .ok r' →
      ∀ n ∈ L, ∃ dep d', idx.lookup n = some dep ∧ d' ∈ r' ∧ d'.name = dep.name := by
  intro L
  induction L with
  | nil => intro s r' _ n hn; cases hn
  | cons n0 ns ihl =>
    intro s r' hs n hn
    rw [List.foldlM_cons] at hs
    cases hv : visit idx fuel s n0 with
    | error e => rw [hv] at hs; exact (Except.noConfusion hs)
    | ok s1 =>
      rw [hv] at hs
      dsimp only [Bind.bind, Except.bind] at hs
      rcases List.mem_cons.mp hn with rfl | hn'
      · rcases visit_mem idx fuel s n s1 hv with ⟨dep, d', hl, hd', hnm⟩
        exact ⟨dep, d', hl, foldSeeds_mono idx fuel ns s1 r' hs d' hd', hnm⟩
      · exact ihl s1 r' hs n hn'

theorem foldSeeds_sub (idx : List (String × YarnDependency)) (fuel : Nat) :
    ∀ (L : List String) (s r' : List YarnDependency),
      L.foldlM (fun r n => visit idx fuel r n) s = .ok r' →
      ∀ y ∈ r', y ∈ s ∨ ∃ n', idx.lookup n' = some y := by
  intro L
  induction L with
  | nil =>
    intro s r' hs y hy
    rw [List.foldlM_nil] at hs
    cases hs
    exact Or.inl hy
  | cons n0 ns ihl =>
    intro s r' hs y hy
    rw [List.foldlM_cons] at hs
    cases hv : visit idx fuel s n0 with
    | error e => rw [hv] at hs; exact (Except.noConfusion hs)
    | ok s1 =>
      rw [hv] at hs
      dsimp only [Bind.bind, Except.bind] at hs
      rcases ihl s1 r' hs y hy with h1 | h2
      · exact visit_sub idx fuel s n0 s1 hv y h1
      · exact Or.inr h2

theorem foldSeeds_done (idx : List (String × YarnDependency)) (fuel : Nat) :
    ∀ (L : List String) (s r' : List YarnDependency),
      L.foldlM (fun r n => visit idx fuel r n) s = .ok r' →
      (∀ d ∈ s, DoneIn idx r' d) →
      ∀ d ∈ r', DoneIn idx r' d := by
  intro L
  induction L with
  | nil =>
    intro s r' hs hprem d hd
    rw [List.foldlM_nil] at hs
    cases hs
    exact hprem d hd
  | cons n0 ns ihl =>
    intro s r' hs hprem d hd
    rw [List.foldlM_cons] at hs
    cases hv : visit idx fuel s n0 with
    | error e => rw [hv] at hs; exact (Except.noConfusion hs)
    | ok s1 =>
      rw [hv] at hs
      dsimp only [Bind.bind, Except.bind] at hs
      refine ihl s1 r' hs ?_ d hd
      intro d' hd'
      rcases visit_done idx fuel s n0 s1 hv d' hd' with hins | hdone'
      · exact hprem d' hins
      · exact doneIn_mono (fun y hy => foldSeeds_mono idx fuel ns s1 r' hs y hy) hdone'

/-- Structural facts about every successful selection: the result consists
of top-level nodes, every allow-listed name contributes a node of that name,
and every child of a selected node resolves through the index to a selected
top-level node. -/
theorem selectYarn_ok_props (fuel : Nat) (deps : List YarnDependency) (L : List String)
    (res : List YarnDependency) (h : selectYarnDependencies fuel deps L = .ok res) :
    (∀ d ∈ res, d ∈ deps) ∧
    (∀ n ∈ L, ∃ d', d' ∈ res ∧ d'.name = n) ∧
    (∀ d ∈ res, ∀ c ∈ d.children, ∃ d', d' ∈ deps ∧ d'.name = c.name ∧ d' ∈ res) := by
  unfold selectYarnDependencies at h
  cases hb : buildIndex deps with
  | error e => rw [hb] at h; exact (Except.noConfusion h)
  | ok idx =>
    rw [hb] at h
    dsimp only [Bind.bind, Except.bind] at h
    have hsub : ∀ d ∈ res, d ∈ deps := by
      intro d hd
      rcases foldSeeds_sub idx fuel L [] res h d hd with habs | ⟨n', hl⟩
      · cases habs
      · exact (buildIndex_lookup hb hl).1
    refine ⟨hsub, ?_, ?_⟩
    · intro n hn
      rcases foldSeeds_mem idx fuel L [] res h n hn with ⟨dep, d', hl, hd', hnm⟩
      exact ⟨d', hd', by rw [hnm, (buildIndex_lookup hb hl).2]⟩
    · intro d hd c hc
      have hdone := foldSeeds_done idx fuel L [] res h (by intro d' hd'; cases hd') d hd
      rcases hdone c hc with ⟨dep, d', hl, hd', hnm⟩
      refine ⟨d', hsub d' hd', ?_, hd'⟩
      rw [hnm, (buildIndex_lookup hb hl).2]

/-! ### Lemmas about flattening and its paths -/

mutual
theorem flattenInto_mono (x : String) (acc : List String) (d : YarnDependency)
    (h : x ∈ acc) : x ∈ flattenInto acc d :=
  match d with
  | .mk _ p cs => flattenList_mono x (addSet acc p) cs (mem_addSet.mpr (Or.inl h))

theorem flattenList_mono (x : String) (acc : List String) (l : List YarnDependency)
    (h : x ∈ acc) : x ∈ flattenInto.flattenList acc l :=
  match l with
  | [] => h
  | d :: rest => flattenList_mono x (flattenInto acc d) rest (flattenInto_mono x acc d h)
end

mutual
theorem subtree_flattenInto (q : String) (acc : List String) (d : YarnDependency)
    (h : q ∈ subtreePaths d) : q ∈ flattenInto acc d :=
  match d with
  | .mk n p cs => by
    rw [subtreePaths] at h
    show q ∈ flattenInto.flattenList (addSet acc p) cs
    rcases List.mem_cons.mp h with rfl | hq
    · exact flattenList_mono q _ cs (mem_addSet.mpr (Or.inr rfl))
    · exact subtree_flattenList q _ cs hq

theorem subtree_flattenList (q : String) (acc : List String) (l : List YarnDependency)
    (h : q ∈ subtreePaths.subtreeList l) : q ∈ flattenInto.flattenList acc l :=
  match l with
  | [] => by rw [subtreePaths.subtreeList] at h; cases h
  | d :: rest => by
    rw [subtreePaths.subtreeList] at h
    rcases List.mem_append.mp h with h1 | h2
    · exact flattenList_mono q (flattenInto acc d) rest (subtree_flattenInto q acc d h1)
    · exact subtree_flattenList q (flattenInto acc d) rest h2
end

mutual
theorem flattenInto_nodup (acc : List String) (d : YarnDependency)
    (h : acc.Nodup) : (flattenInto acc d).Nodup :=
  match d with
  | .mk _ p cs => flattenList_nodup (addSet acc p) cs (addSet_nodup h)

theorem flattenList_nodup (acc : List String) (l : List YarnDependency)
    (h : acc.Nodup) : (flattenInto.flattenList acc l).Nodup :=
  match l with
  | [] => h
  | d :: rest => flattenList_nodup (flattenInto acc d) rest (flattenInto_nodup acc d h)
end

theorem foldl_flattenInto_mono (deps : List YarnDependency) :
    ∀ (acc : List String) (x : String), x ∈ acc → x ∈ deps.foldl flattenInto acc := by
  induction deps with
  | nil => intro acc x h; simpa using h
  | cons d rest ih =>
    intro acc x h
    rw [List.foldl_cons]
    exact ih _ x (flattenInto_mono x acc d h)

theorem foldl_flattenInto_subtree (deps : List YarnDependency) :
    ∀ (acc : List String) (d : YarnDependency) (q : String),
      d ∈ deps → q ∈ subtreePaths d → q ∈ deps.foldl flattenInto acc := by
  induction deps with
  | nil => intro acc d q hd; cases hd
  | cons d0 rest ih =>
    intro acc d q hd hq
    rw [List.foldl_cons]
    rcases List.mem_cons.mp hd with rfl | hd'
    · exact foldl_flattenInto_mono rest _ q (subtree_flattenInto q acc d hq)
    · exact ih _ d q hd' hq

theorem foldl_flattenInto_nodup (deps : List YarnDependency) :
    ∀ (acc : List String), acc.Nodup → (deps.foldl flattenInto acc).Nodup := by
  induction deps with
  | nil => intro acc h; simpa using h
  | cons d rest ih =>
    intro acc h
    rw [List.foldl_cons]
    exact ih _ (flattenInto_nodup acc d h)

theorem path_mem_subtreePaths (d : YarnDependency) : d.path ∈ subtreePaths d := by
  cases d with
  | mk n p cs =>
    rw [subtreePaths]
    exact List.mem_cons_self _ _

/-- C5: whenever tree selection succeeds, the result contains the path of a
node named after every allow-listed name, and the FULL original subtree of
every selected node is flattened into the result, not only directly-visited
nodes. -/
theorem C5_selection_closure (ps : String → Option String) (cwd : String)
    (trees : List YarnTreeNode) (L : List String) (fuel : Nat) (res : List String)
    (h : getYarnDependencies ps cwd trees (some L) fuel = .ok res) :
    ∃ deps, getYarnProductionDependencies ps cwd trees (some L) fuel = .ok deps ∧
      (∀ n ∈ L, ∃ d, d ∈ deps ∧ d.name = n ∧ d.path ∈ res) ∧
      (∀ d ∈ deps, ∀ q ∈ subtreePaths d, q ∈ res) := by
  unfold getYarnDependencies at h
  cases hd : getYarnProductionDependencies ps cwd trees (some L) fuel with
  | error e => rw [hd] at h; exact (Except.noConfusion h)
  | ok deps =>
    rw [hd] at h
    dsimp only [Bind.bind, Except.bind] at h
    cases h
    have hsel : selectYarnDependencies fuel
        ((trees.map (fun t =>
          asYarnDependency ps (joinPath [cwd, "node_modules"]) t (!(some L).isSome))).reduceOption) L =
        .ok deps := by
      unfold getYarnProductionDependencies at hd
      exact hd
    have hprops := selectYarn_ok_props fuel _ L deps hsel
    refine ⟨deps, rfl, ?_, ?_⟩
    · intro n hn
      rcases hprops.2.1 n hn with ⟨d, hd', hnm⟩
      exact ⟨d, hd', hnm,
        foldl_flattenInto_subtree deps [cwd] d d.path hd' (path_mem_subtreePaths d)⟩
    · intro d hd' q hq
      exact foldl_flattenInto_subtree deps [cwd] d q hd' hq

/-- Witness for `C5_selection_closure` on a three-tree forest where `a`
reaches `b` reaches `c` through child names. -/
theorem C5_selection_closure_witness :
    ∃ deps, getYarnProductionDependencies ps0 "CWD" trees5 (some ["a"]) 10 = .ok deps ∧
      (∀ n ∈ ["a"], ∃ d, d ∈ deps ∧ d.name = n ∧ d.path ∈
        ["CWD", "CWD/node_modules/a", "CWD/node_modules/a/node_modules/b",
         "CWD/node_modules/b", "CWD/node_modules/b/node_modules/c", "CWD/node_modules/c"]) ∧
      (∀ d ∈ deps, ∀ q ∈ subtreePaths d, q ∈
        ["CWD", "CWD/node_modules/a", "CWD/node_modules/a/node_modules/b",
         "CWD/node_modules/b", "CWD/node_modules/b/node_modules/c", "CWD/node_modules/c"]) :=
  C5_selection_closure ps0 "CWD" trees5 ["a"] 10
    ["CWD", "CWD/node_modules/a", "CWD/node_modules/a/node_modules/b",
     "CWD/node_modules/b", "CWD/node_modules/b/node_modules/c", "CWD/node_modules/c"]
    (by decide)

/-- C6: with no allow-list (prune mode), a node whose raw label contains a
range marker (`@^` or `@~`) is dropped with its entire subtree before its
children are visited, while a node without a range marker is always
retained; concretely, the child of the pruned `left-pad@^1.2.3` never
appears while the pinned sibling `left-pad@1.2.3` is kept. -/
theorem C6_prune_ranges :
    (∀ (ps : String → Option String) (pre : String) (t : YarnTreeNode),
      hasRange t.name = true → asYarnDependency ps pre t true = none) ∧
    (∀ (ps : String → Option String) (pre : String) (t : YarnTreeNode),
      hasRange t.name = false → ∃ d, asYarnDependency ps pre t true = some d) ∧
    getYarnDependencies psC6 "CWD" trees6 none 10 = .ok ["CWD", "CWD/node_modules/left-pad"] ∧
    "CWD/node_modules/left-pad" ∈ ["CWD", "CWD/node_modules/left-pad"] ∧
    joinPath ["CWD", "node_modules", "left-pad@^1.2.3"] ∉ ["CWD", "CWD/node_modules/left-pad"] ∧
    joinPath ["CWD", "node_modules", "left-pad@^1.2.3", "node_modules", "marker@1.0.0"] ∉
      ["CWD", "CWD/node_modules/left-pad"] := by
  refine ⟨?_, ?_, by decide, by decide, by decide, by decide⟩
  · intro ps pre t h
    cases t with
    | mk n cs =>
      simp only [YarnTreeNode.name] at h
      unfold asYarnDependency
      rw [if_pos]
      rw [Bool.true_and, h]
  · intro ps pre t h
    cases t with
    | mk n cs =>
      simp only [YarnTreeNode.name] at h
      unfold asYarnDependency
      rw [if_neg]
      · exact ⟨_, rfl⟩
      · rw [Bool.true_and, h]
        simp

/-- Witness for `C6_prune_ranges` at the ranged and pinned labels. -/
theorem C6_prune_ranges_witness :
    asYarnDependency psC6 "P" (.mk "left-pad@^1.2.3" []) true = none ∧
    ∃ d, asYarnDependency psC6 "P" (.mk "left-pad@1.2.3" []) true = some d :=
  ⟨C6_prune_ranges.1 psC6 "P" (.mk "left-pad@^1.2.3" []) (by decide),
   C6_prune_ranges.2.1 psC6 "P" (.mk "left-pad@1.2.3" []) (by decide)⟩

/-- C7 (counterexample to the claim as stated): on a label whose name part
has more than one character, the fallback regex `^([^@+])@.*$` does NOT
match, so nothing is stripped: the cleaned name keeps the whole label
`ab@1.0` instead of the claimed `ab`. -/
theorem C7_counterexample :
    asYarnDependency ps0 "P" (.mk "ab@1.0" []) false =
      some (.mk "ab@1.0" (joinPath ["P", "ab@1.0"]) []) ∧
    specStripAtSuffix "ab@1.0" = "ab" ∧
    "ab@1.0" ≠ "ab" := by
  refine ⟨rfl, by decide, by decide⟩

/-- C7 (amended): on a label whose strict parse fails, the cleaned name is
the label transformed by `replace(/^([^@+])@.*$/, '$1')`: the `@`-suffix is
stripped exactly when the label is a SINGLE character other than `@`/`+`
followed by `@` and a line-terminator-free tail (then the name is that
character); otherwise the label is used unchanged. The node's path is the
join of the prefix with that cleaned name. -/
theorem C7_fallback_name (ps : String → Option String) (pre : String) (t : YarnTreeNode)
    (prune : Bool) (hps : ps t.name = none) (d : YarnDependency)
    (h : asYarnDependency ps pre t prune = some d) :
    d.name = yarnFallbackName t.name ∧ d.path = joinPath [pre, yarnFallbackName t.name] := by
  cases t with
  | mk n cs =>
    simp only [YarnTreeNode.name] at hps ⊢
    unfold asYarnDependency at h
    by_cases hp : (prune && hasRange n) = true
    · rw [if_pos hp] at h
      exact (Option.noConfusion h)
    · rw [if_neg hp] at h
      rw [hps] at h
      dsimp only at h
      cases h
      exact ⟨rfl, rfl⟩

/-- Witness for `C7_fallback_name` on the single-character label `a@1.0`. -/
theorem C7_fallback_name_witness :
    (YarnDependency.mk "a" (joinPath ["P", "a"]) []).name = yarnFallbackName "a@1.0" ∧
    (YarnDependency.mk "a" (joinPath ["P", "a"]) []).path =
      joinPath ["P", yarnFallbackName "a@1.0"] :=
  C7_fallback_name ps0 "P" (.mk "a@1.0" []) false rfl
    (.mk "a" (joinPath ["P", "a"]) []) rfl

theorem root_dedup_result (cwd : String) (paths : List String) :
    cwd ∈ dedup (if paths.contains cwd = true then paths else paths ++ [cwd]) ∧
    (dedup (if paths.contains cwd = true then paths else paths ++ [cwd])).Nodup := by
  constructor
  · rw [mem_dedup]
    by_cases hc : paths.contains cwd = true
    · rw [if_pos hc]
      simpa using hc
    · rw [if_neg hc]
      exact List.mem_append_right _ (List.mem_cons_self _ _)
  · exact nodup_dedup _

/-- C9: every successful enumeration of either resolver returns a
deduplicated list of paths containing the project root. -/
theorem C9_root_dedup :
    (∀ (env : Env) (lp : String) (lock : DenoLock) (cwd : String)
        (pd : Option (List String)) (res : List String),
      getDenoDependencies env lp lock cwd pd = .ok res → cwd ∈ res ∧ res.Nodup) ∧
    (∀ (ps : String → Option String) (cwd : String) (trees : List YarnTreeNode)
        (pd : Option (List String)) (fuel : Nat) (res : List String),
      getYarnDependencies ps cwd trees pd fuel = .ok res → cwd ∈ res ∧ res.Nodup) := by
  constructor
  · intro env lp lock cwd pd res h
    unfold getDenoDependencies at h
    cases pd with
    | none =>
      dsimp only at h
      cases hl : lock.registries.lookup "npm" with
      | none =>
        rw [hl] at h
        exact (Except.noConfusion h)
      | some entries =>
        rw [hl] at h
        dsimp only [Bind.bind, Except.bind] at h
        cases hm1 : (entries.map (·.1)).mapM splitMultiPackageAtVersion with
        | error e =>
          rw [hm1] at h
          dsimp only [Bind.bind, Except.bind] at h
          exact (Except.noConfusion h)
        | ok piecess =>
          rw [hm1] at h
          dsimp only [Bind.bind, Except.bind] at h
          cases hm2 : piecess.flatten.mapM (fun p => denoPath env lp p) with
          | error e =>
            rw [hm2] at h
            dsimp only [Bind.bind, Except.bind] at h
            exact (Except.noConfusion h)
          | ok paths =>
            rw [hm2] at h
            dsimp only [Bind.bind, Except.bind] at h
            cases h
            exact root_dedup_result cwd paths
    | some pdl =>
      dsimp only at h
      cases hs : selectDenoDependencies env lp lock pdl with
      | error e =>
        rw [hs] at h
        exact (Except.noConfusion h)
      | ok paths =>
        rw [hs] at h
        dsimp only [Bind.bind, Except.bind] at h
        cases h
        exact root_dedup_result cwd paths
  · intro ps cwd trees pd fuel res h
    unfold getYarnDependencies at h
    cases hd : getYarnProductionDependencies ps cwd trees pd fuel with
    | error e =>
      rw [hd] at h
      exact (Except.noConfusion h)
    | ok deps =>
      rw [hd] at h
      dsimp only [Bind.bind, Except.bind] at h
      cases h
      constructor
      · exact foldl_flattenInto_mono deps [cwd] cwd (List.mem_cons_self _ _)
      · exact foldl_flattenInto_nodup deps [cwd] (List.nodup_cons.mpr ⟨by simp, List.nodup_nil⟩)

/-- Witness for `C9_root_dedup` at one concrete run per resolver. -/
theorem C9_root_dedup_witness :
    ("ROOT" ∈ [denoStorePath "LK" "lodash@4.17.21", "ROOT"] ∧
      [denoStorePath "LK" "lodash@4.17.21", "ROOT"].Nodup) ∧
    ("CWD" ∈ ["CWD", "CWD/node_modules/left-pad"] ∧
      ["CWD", "CWD/node_modules/left-pad"].Nodup) :=
  ⟨C9_root_dedup.1 env2 "LK" lock2 "ROOT" none
      [denoStorePath "LK" "lodash@4.17.21", "ROOT"] (by decide),
   C9_root_dedup.2 psC6 "CWD" trees6 none 10
      ["CWD", "CWD/node_modules/left-pad"] (by decide)⟩

/-- C10 (implicit): the selection walk resolves every child through the
index built over TOP-LEVEL forest nodes only: every selected node is a
top-level node, every child of a selected node has a top-level node of the
same name which is itself selected, and a transitively reached child whose
name is absent top-level makes the call fail with the missing-dependency
error even though the seed itself is present. -/
theorem C10_top_level_index :
    (∀ (fuel : Nat) (deps : List YarnDependency) (L : List String)
        (res : List YarnDependency),
      selectYarnDependencies fuel deps L = .ok res →
      (∀ d ∈ res, d ∈ deps) ∧
      (∀ d ∈ res, ∀ c ∈ d.children, ∃ d', d' ∈ deps ∧ d'.name = c.name ∧ d' ∈ res)) ∧
    selectYarnDependencies 10 [A10, B10, C10n] ["a"] = .ok [A10, B10, C10n] ∧
    selectYarnDependencies 10 [A10] ["a"] = .error (.missing "b") := by
  refine ⟨?_, rfl, rfl⟩
  intro fuel deps L res h
  have hp := selectYarn_ok_props fuel deps L res h
  exact ⟨hp.1, hp.2.2⟩

/-- Witness for `C10_top_level_index` at the successful concrete selection. -/
theorem C10_top_level_index_witness :
    (∀ d ∈ [A10, B10, C10n], d ∈ [A10, B10, C10n]) ∧
    (∀ d ∈ [A10, B10, C10n], ∀ c ∈ d.children,
      ∃ d', d' ∈ [A10, B10, C10n] ∧ d'.name = c.name ∧ d' ∈ [A10, B10, C10n]) :=
  C10_top_level_index.1 10 [A10, B10, C10n] ["a"] [A10, B10, C10n] rfl
